import Mathlib

/-!
Verification of the combinatorial command-generation engine and sandboxed
execution runner of `build_all.py`.

The development shallowly embeds the program:

* metadata dictionaries (`Meta`) are insertion-ordered association lists with
  Python `dict` semantics (`dinsert` models `d[k] = v`, `dupdate` models
  `d.update(other)`);
* template strings are modelled by the inductive `TStr` (literal pieces and
  `\x7b\x7b name \x7d\x7d` variable references); the opaque templating
  subsystem configured with `StrictUndefined` is `renderT`, which substitutes
  every variable reference and fails with `RenderErr.undefinedVar` on a
  missing key; `jinja_render_str` / `jinja_render` embed the `jinja_render`
  function of the source, including its marker-detection fast path;
* the generator data model (`Factor`, `CmdGenerator`, `CmdGeneratorResult`)
  and `build_commands` follow the source line by line; the process-wide
  `CmdGenerator.global_meta` overlay is passed explicitly as `gmeta`;
* the filesystem is an explicit state (`FS`), `run_command_isolated` threads
  it through staging, process invocation (an opaque `Proc` parameter),
  harvesting and teardown; `run_for_series` is the driver loop.
-/

set_option autoImplicit false

namespace BuildAll

/-! ## Metadata dictionaries (Python `dict` model) -/

/-- Insertion-ordered key/value map, the model of a Python `dict` of strings. -/
abbrev Meta := List (String × String)

/-- `dinsert m k v` models `m[k] = v`: replace the value in place when the key
is present, append a fresh entry otherwise. -/
def dinsert : Meta → String → String → Meta
  | [], k, v => [(k, v)]
  | (k₁, v₁) :: rest, k, v =>
    if k₁ = k then (k₁, v) :: rest else (k₁, v₁) :: dinsert rest k v

/-- `dupdate m other` models `m.update(other)`. -/
def dupdate (m other : Meta) : Meta :=
  other.foldl (fun acc p => dinsert acc p.1 p.2) m

/-- `dget m k` models `m[k]` lookup (first matching entry). -/
def dget (m : Meta) (k : String) : Option String :=
  match m with
  | [] => none
  | (k₁, v₁) :: rest => if k₁ = k then some v₁ else dget rest k

/-- The keys of a metadata dictionary, in order. -/
def mkeys (m : Meta) : List String := m.map Prod.fst

/-- Two key lists are interchangeable for rendering purposes when they have
the same members. -/
def sameMembers (l₁ l₂ : List String) : Prop := ∀ k, k ∈ l₁ ↔ k ∈ l₂

/-! ## Template strings and the rendering subsystem -/

/-- Template strings: literal text, a variable reference
`\x7b\x7b name \x7d\x7d`, or concatenation. -/
inductive TStr where
  | lit (s : String)
  | var (name : String)
  | cat (a b : TStr)
  deriving DecidableEq, Repr

/-- Whether the raw string contains template markers
(the source tests `"\x7b\x7b" in template or "\x7b%\x7d" in template`);
in this model a marker is present exactly when a variable node occurs. -/
def TStr.hasMarker : TStr → Bool
  | .lit _ => false
  | .var _ => true
  | .cat a b => a.hasMarker || b.hasMarker

/-- The raw string a template was parsed from. -/
def TStr.flatten : TStr → String
  | .lit s => s
  | .var n => "\x7b\x7b " ++ n ++ " \x7d\x7d"
  | .cat a b => a.flatten ++ b.flatten

/-- The variable names referenced by a template. -/
def TStr.varNames : TStr → List String
  | .lit _ => []
  | .var n => [n]
  | .cat a b => a.varNames ++ b.varNames

/-- Rendering failures: the environment is configured with `StrictUndefined`,
so the only failure is an undefined variable reference. -/
inductive RenderErr where
  | undefinedVar (name : String)
  deriving DecidableEq, Repr

/-- The opaque templating subsystem
(`jinja_env.from_string(template).render(**args)`): substitute every variable
reference from the context, failing on an undefined one. -/
def renderT : TStr → Meta → Except RenderErr String
  | .lit s, _ => .ok s
  | .var n, m =>
    match dget m n with
    | some v => .ok v
    | none => .error (.undefinedVar n)
  | .cat a b, m =>
    match renderT a m, renderT b m with
    | .ok s₁, .ok s₂ => .ok (s₁ ++ s₂)
    | .error e, _ => .error e
    | .ok _, .error e => .error e

/-- Whether an `Except` computation succeeded. -/
def exOk {ε α : Type} : Except ε α → Bool
  | .ok _ => true
  | .error _ => false

/-- A template-bearing file reference argument
(`CmdFile(name, purpose, type="file")`, before rendering). -/
structure CmdFileT where
  name : TStr
  purpose : String
  type : String
  deriving DecidableEq, Repr

/-- A rendered file reference argument. -/
structure CmdFileR where
  name : String
  purpose : String
  type : String
  deriving DecidableEq, Repr

/-- A command argument before rendering: a plain/templated string or a
`CmdFile`. -/
inductive CmdArgT where
  | str (s : TStr)
  | file (f : CmdFileT)
  deriving DecidableEq, Repr

/-- A command argument after rendering. -/
inductive CmdArgR where
  | str (s : String)
  | file (f : CmdFileR)
  deriving DecidableEq, Repr

/-- `jinja_render` on a plain string: dispatch on the marker check
(`"\x7b\x7b" in template or "\x7b%\x7d" in template`); without markers the
string is returned unchanged, otherwise the templating subsystem runs. -/
def jinja_render_str (t : TStr) (m : Meta) : Except RenderErr String :=
  if t.hasMarker then renderT t m else .ok t.flatten

/-- `jinja_render` on a command argument: a `CmdFile` has its `name` rendered
recursively with `purpose`/`type` carried over, a string goes through
`jinja_render_str`. -/
def jinja_render (a : CmdArgT) (m : Meta) : Except RenderErr CmdArgR :=
  match a with
  | .file f =>
    match jinja_render_str f.name m with
    | .ok s => .ok (.file ⟨s, f.purpose, f.type⟩)
    | .error e => .error e
  | .str t =>
    match jinja_render_str t m with
    | .ok s => .ok (.str s)
    | .error e => .error e

/-! ## The generator data model -/

/-- The result type of `build_commands` (`CmdGeneratorResult`): resolved
destination path, rendered arguments and the accumulated metadata. -/
structure CmdGeneratorResult where
  path : String
  cmd_args : List CmdArgR
  meta : Meta
  deriving DecidableEq, Repr

/-- One element drawn from a factor's iteration: a raw domain value, or (for
a nested-matrix domain) a fully resolved command of the inner matrix. -/
inductive FactorValue (V : Type) where
  | val (v : V)
  | result (r : CmdGeneratorResult)
  deriving DecidableEq, Repr

/-- A `Factor`: a named axis with the value stream its `__iter__` yields,
per-value command-fragment and metadata-tag transforms, and an optional
validity predicate. -/
structure Factor (V : Type) where
  name : String
  valuesSeq : List (FactorValue V)
  to_command : V → List TStr
  to_meta : V → String
  condition : Option (Meta → Bool)

/-- `Factor.__iter__` for a plain tuple domain: the literal values in
declaration order. -/
def factorOfValues {V : Type} (name : String) (vs : List V)
    (tc : V → List TStr) (tm : V → String) (cond : Option (Meta → Bool)) :
    Factor V :=
  ⟨name, vs.map .val, tc, tm, cond⟩

/-- A `CmdGenerator`: command-token template list, ordered factors, named
template variables, output-path template and the gathered filters. -/
structure CmdGenerator (V : Type) where
  cmd : List CmdArgT
  factors : List (Factor V)
  vars : List (String × TStr)
  path : TStr
  filters : List (Meta → Bool)

/-- `CmdGenerator.__post_init__`: append each factor's declared condition to
the filter list. -/
def mkCmdGenerator {V : Type} (cmd : List CmdArgT) (factors : List (Factor V))
    (vars : List (String × TStr)) (path : TStr)
    (filters : List (Meta → Bool)) : CmdGenerator V :=
  ⟨cmd, factors, vars, path, filters ++ factors.filterMap (·.condition)⟩

/-- `itertools.product`: row-major Cartesian product, first list varying
slowest. -/
def listProduct {α : Type} : List (List α) → List (List α)
  | [] => [[]]
  | xs :: rest => (xs.map (fun x => (listProduct rest).map (fun t => x :: t))).flatten

/-- `CmdGenerator.product`: the Cartesian product over the factors'
iteration streams. -/
def CmdGenerator.product {V : Type} (g : CmdGenerator V) : List (List (FactorValue V)) :=
  listProduct (g.factors.map (·.valuesSeq))

/-- `CmdGenerator._filter`: the conjunction of all filters on a metadata
dictionary. -/
def CmdGenerator.runFilter {V : Type} (g : CmdGenerator V) (m : Meta) : Bool :=
  g.filters.all (fun f => f m)

/-- The metadata accumulation of the per-combination factor loop: a nested
result merges its whole metadata map (`meta.update(value.meta)`), a raw value
stores its tag under the factor's name (`meta[factor.name] = factor.to_meta(value)`). -/
def factorMeta {V : Type} (pairs : List (Factor V × FactorValue V)) (m : Meta) : Meta :=
  pairs.foldl
    (fun acc p =>
      match p.2 with
      | .result r => dupdate acc r.meta
      | .val v => dinsert acc p.1.name (p.1.to_meta v))
    m

/-- The command-argument accumulation of the factor loop: a raw value appends
its fragment (`cmd_args.extend(factor.to_command(value))`), a nested result
appends nothing. -/
def factorArgs {V : Type} (pairs : List (Factor V × FactorValue V))
    (args : List CmdArgT) : List CmdArgT :=
  pairs.foldl
    (fun acc p =>
      match p.2 with
      | .result _ => acc
      | .val v => acc ++ (p.1.to_command v).map .str)
    args

/-- The `for i, value in enumerate(combos)` loop of `build_commands`: starting
from a copy of the command template and of the process-wide overlay. -/
def factorPass {V : Type} (g : CmdGenerator V) (gmeta : Meta)
    (combo : List (FactorValue V)) : List CmdArgT × Meta :=
  (factorArgs (g.factors.zip combo) g.cmd, factorMeta (g.factors.zip combo) gmeta)

/-- The loop of the dict comprehension
`{key: jinja_render(value, **meta) for key, value in self.vars.items()}`:
every variable template is rendered against the same `m`, results are
collected into a fresh dict `d`, and the first failure propagates. -/
def renderVarsGo : List (String × TStr) → Meta → Meta → Except RenderErr Meta
  | [], _, d => .ok d
  | p :: rest, m, d =>
    match jinja_render_str p.2 m with
    | .ok r => renderVarsGo rest m (dinsert d p.1 r)
    | .error e => .error e

/-- The dict comprehension itself, starting from an empty dict. -/
def renderVars (vars : List (String × TStr)) (m : Meta) : Except RenderErr Meta :=
  renderVarsGo vars m []

/-- `meta.update(
    {key: jinja_render(value, **meta) for key, value in self.vars.items()})`. -/
def resolveVars (vars : List (String × TStr)) (m : Meta) : Except RenderErr Meta :=
  match renderVars vars m with
  | .ok d => .ok (dupdate m d)
  | .error e => .error e

/-- `[jinja_render(arg, **meta) for arg in cmd_args]`: left-to-right, the
first failing argument aborts. -/
def renderArgs (args : List CmdArgT) (m : Meta) : Except RenderErr (List CmdArgR) :=
  match args with
  | [] => .ok []
  | a :: rest =>
    match jinja_render a m with
    | .error e => .error e
    | .ok r =>
      match renderArgs rest m with
      | .error e => .error e
      | .ok rs => .ok (r :: rs)

/-- The body of `build_commands` for one candidate combination: factor loop,
variable resolution, filtering, and rendering of arguments and output path.
Returns `none` for a combination dropped by the filters. -/
def processCombo {V : Type} (gmeta : Meta) (g : CmdGenerator V)
    (combo : List (FactorValue V)) : Except RenderErr (Option CmdGeneratorResult) :=
  match resolveVars g.vars (factorPass g gmeta combo).2 with
  | .error e => .error e
  | .ok meta =>
    if g.runFilter meta then
      match renderArgs (factorPass g gmeta combo).1 meta with
      | .error e => .error e
      | .ok rendered =>
        match jinja_render_str g.path meta with
        | .error e => .error e
        | .ok p => .ok (some ⟨p, rendered, meta⟩)
    else .ok none

/-- The generator semantics of `build_commands` over a combination list: the
prefix of yielded results, together with the exception (if any) that aborts
the iteration. -/
def buildStreamAux {V : Type} (gmeta : Meta) (g : CmdGenerator V) :
    List (List (FactorValue V)) → List CmdGeneratorResult × Option RenderErr
  | [] => ([], none)
  | c :: rest =>
    match processCombo gmeta g c with
    | .error e => ([], some e)
    | .ok none => buildStreamAux gmeta g rest
    | .ok (some r) =>
      let t := buildStreamAux gmeta g rest
      (r :: t.1, t.2)

/-- `CmdGenerator.build_commands()` as a lazy stream: the yielded results in
order plus the error that interrupts the iteration, if any. `gmeta` is the
process-wide `CmdGenerator.global_meta` overlay. -/
def buildStream {V : Type} (gmeta : Meta) (g : CmdGenerator V) :
    List CmdGeneratorResult × Option RenderErr :=
  buildStreamAux gmeta g g.product

/-- `build_commands` fully consumed: the result list when no combination
raises, the raised error otherwise. -/
def build_commands {V : Type} (gmeta : Meta) (g : CmdGenerator V) :
    Except RenderErr (List CmdGeneratorResult) :=
  match buildStream gmeta g with
  | (rs, none) => .ok rs
  | (_, some e) => .error e

/-- `Factor.__iter__` for a nested `CmdGenerator` domain: the stream of the
inner matrix's resolved commands (`self.values.build_commands()`);
`itertools.product` consumes it eagerly, so only an error-free inner stream
is meaningful. -/
def factorOfGenerator {V : Type} (name : String) (gmeta : Meta)
    (g : CmdGenerator V) (tc : V → List TStr) (tm : V → String)
    (cond : Option (Meta → Bool)) : Factor V :=
  ⟨name, (buildStream gmeta g).1.map .result, tc, tm, cond⟩

/-! ## Filesystem and sandboxed execution -/

/-- Filesystem paths as component lists; `[]` is the current working
directory. -/
abbrev FPath := List String

/-- Split a character list on `/` (the recursion of `str.split("/")`). -/
def splitComponentsAux : List Char → List Char → List String
  | [], acc => [String.mk acc.reverse]
  | c :: rest, acc =>
    if c = '/' then String.mk acc.reverse :: splitComponentsAux rest []
    else splitComponentsAux rest (c :: acc)

/-- `Path(s)` from a rendered name: the separator-split components. -/
def strToPath (s : String) : FPath := splitComponentsAux s.data []

/-- `str.endswith(suffix)`. -/
def strEndsWith (s suffix : String) : Bool :=
  decide (suffix.data = s.data.drop (s.data.length - suffix.data.length))

/-- Lexicographic order on characters lists, used to model directory-walk
ordering. -/
def charListLt : List Char → List Char → Bool
  | [], [] => false
  | [], _ :: _ => true
  | _ :: _, [] => false
  | a :: as, b :: bs => if a = b then charListLt as bs else decide (a < b)

/-- Lexicographic order on strings. -/
def strLt (a b : String) : Bool := charListLt a.data b.data

/-- `Path(s).name`: the final path component. -/
def pathName (s : String) : String := (strToPath s).getLastD ""

/-- `underDir root p`: `p` equals `root` or lies below it. -/
def underDir (root p : FPath) : Bool := decide (root = p.take root.length)

/-- The filesystem state: regular files with contents, plus directories.
The current working directory `[]` always exists. -/
structure FS where
  files : List (FPath × String)
  dirs : List FPath
  deriving DecidableEq, Repr

def FS.isDir (fs : FS) (p : FPath) : Bool :=
  p.isEmpty || fs.dirs.any (fun d => d = p)

/-- Look a path up in a file table (first matching entry). -/
def readFilesList : List (FPath × String) → FPath → Option String
  | [], _ => none
  | q :: rest, p => if q.1 = p then some q.2 else readFilesList rest p

/-- Create or overwrite an entry of a file table. -/
def writeFilesList : List (FPath × String) → FPath → String → List (FPath × String)
  | [], p, c => [(p, c)]
  | q :: rest, p, c =>
    if q.1 = p then (p, c) :: rest else q :: writeFilesList rest p c

def FS.readFile (fs : FS) (p : FPath) : Option String :=
  readFilesList fs.files p

def FS.isFile (fs : FS) (p : FPath) : Bool :=
  (readFilesList fs.files p).isSome

/-- Write (create or overwrite) a regular file. -/
def FS.writeFile (fs : FS) (p : FPath) (c : String) : FS :=
  { fs with files := writeFilesList fs.files p c }

/-- Record a directory (idempotent). -/
def FS.addDir (fs : FS) (p : FPath) : FS :=
  if fs.isDir p then fs else { fs with dirs := fs.dirs ++ [p] }

/-- The parent of a path. -/
def parentDir (p : FPath) : FPath := p.dropLast

/-- Whether a file may be created at `p` (its parent directory exists). -/
def FS.parentOk (fs : FS) (p : FPath) : Bool := fs.isDir (parentDir p)

/-- Filesystem errors surfaced by the runner. -/
inductive FsErr where
  | fileNotFound (p : FPath)
  | isADirectory (p : FPath)
  | fileExists (p : FPath)
  | noParent (p : FPath)
  | includeDepth
  deriving DecidableEq, Repr

/-- `shutil.copy(src, dst)`: read `src` (a directory source fails), then
write to `dst`, or into `dst` under the source's base name when `dst` is a
directory; the target's parent must exist. -/
def fsCopy (fs : FS) (src dst : FPath) : Except FsErr FS :=
  if fs.isDir src then .error (.isADirectory src)
  else
    match fs.readFile src with
    | none => .error (.fileNotFound src)
    | some c =>
      let target := if fs.isDir dst then dst ++ [src.getLastD ""] else dst
      if fs.parentOk target then .ok (fs.writeFile target c)
      else .error (.noParent target)

/-- `Path.mkdir()` (no parents): fails if the path exists or the parent is
missing. -/
def fsMkdir (fs : FS) (p : FPath) : Except FsErr FS :=
  if fs.isDir p || fs.isFile p then .error (.fileExists p)
  else if fs.parentOk p then .ok (fs.addDir p)
  else .error (.noParent p)

/-- `Path.mkdir(parents=True)`: create the path and all missing ancestors;
fails if the path itself exists as a regular file. -/
def fsMkdirParents (fs : FS) (p : FPath) : Except FsErr FS :=
  if fs.isFile p then .error (.fileExists p)
  else .ok (p.inits.foldl (fun a q => if q.isEmpty then a else FS.addDir a q) fs)

/-- Remove a directory tree: everything at or below `root` disappears
(`TemporaryDirectory` cleanup). -/
def removeTree (fs : FS) (root : FPath) : FS :=
  { files := fs.files.filter (fun q => !(underDir root q.1)),
    dirs := fs.dirs.filter (fun d => !(underDir root d)) }

/-- The include reference of one line of a `.scad` source, per the pattern
`^include <(.*?)>$`. -/
def includeOf (line : String) : Option String :=
  if line.startsWith "include <" && line.endsWith ">" && decide (10 ≤ line.length) then
    some ((line.drop 9).dropRight 1)
  else none

/-- All include references of a `.scad` file's content, in line order. -/
def includesOf (content : String) : List String :=
  (content.splitOn "\n").filterMap includeOf

mutual

/-- `copy_scad_with_include`: recursively stage the include closure of a
`.scad` source, then copy the file itself into the destination directory.
The recursion is fuelled; Python would recurse without bound on an include
cycle. -/
def scadStage : Nat → FS → FPath → FPath → Except FsErr FS
  | 0, _, _, _ => .error .includeDepth
  | n + 1, fs, src, destDir =>
    match fs.readFile src with
    | none => .error (.fileNotFound src)
    | some content =>
      match scadStageList n fs (includesOf content) destDir with
      | .error e => .error e
      | .ok fs₁ => fsCopy fs₁ src destDir
termination_by n _ _ _ => (n, 0)

/-- Stage a list of include references in order. -/
def scadStageList : Nat → FS → List String → FPath → Except FsErr FS
  | _, fs, [], _ => .ok fs
  | n, fs, inc :: rest, destDir =>
    match scadStage n fs (strToPath inc) destDir with
    | .error e => .error e
    | .ok fs₁ => scadStageList n fs₁ rest destDir
termination_by n _ l _ => (n, l.length + 1)

end

/-- The file-reference arguments of a command. -/
def filesOf (cmd_args : List CmdArgR) : List CmdFileR :=
  cmd_args.filterMap (fun a =>
    match a with
    | .file f => some f
    | .str _ => none)

/-- The declared input files. -/
def inputFilesOf (cmd_args : List CmdArgR) : List CmdFileR :=
  (filesOf cmd_args).filter (fun f => f.purpose = "input")

/-- The declared output files. -/
def outputFilesOf (cmd_args : List CmdArgR) : List CmdFileR :=
  (filesOf cmd_args).filter (fun f => f.purpose = "output")

/-- The rewritten argument list handed to the external process:
`[arg.path.name if isinstance(arg, CmdFile) else arg for arg in cmd_args]`. -/
def rewriteArgs (cmd_args : List CmdArgR) : List String :=
  cmd_args.map (fun a =>
    match a with
    | .file f => pathName f.name
    | .str s => s)

/-- Stage one declared input into the sandbox: the include-closure copy for
`.scad` sources, a plain copy to the sandbox root otherwise. -/
def stageOne (fuel : Nat) (tmp : FPath) (fs : FS) (f : CmdFileR) : Except FsErr FS :=
  if strEndsWith (pathName f.name) ".scad" then
    scadStage fuel fs (strToPath f.name) tmp
  else fsCopy fs (strToPath f.name) (tmp ++ [pathName f.name])

/-- Stage all declared inputs in order; the state reached so far is kept on
failure (only sandbox-internal work is lost, and the sandbox is torn down). -/
def stageList (fuel : Nat) (tmp : FPath) : FS → List CmdFileR → FS × Option FsErr
  | fs, [] => (fs, none)
  | fs, f :: rest =>
    match stageOne fuel tmp fs f with
    | .error e => (fs, some e)
    | .ok fs₁ => stageList fuel tmp fs₁ rest

/-- Pre-create the sandbox subdirectory of every declared output of kind
`dir`. -/
def precreateDirs (tmp : FPath) : FS → List CmdFileR → FS × Option FsErr
  | fs, [] => (fs, none)
  | fs, f :: rest =>
    if f.type = "dir" then
      match fsMkdir fs (tmp ++ [pathName f.name]) with
      | .error e => (fs, some e)
      | .ok fs₁ => precreateDirs tmp fs₁ rest
    else precreateDirs tmp fs rest

/-- The observable effect of the opaque external process: an exit code plus
the files and directories it creates under its working directory. -/
structure ProcEffect where
  rc : Int
  writes : List (FPath × String)
  mkdirs : List FPath
  deriving DecidableEq, Repr

/-- The opaque external process: sees the rewritten argument list and the
filesystem, works relative to the sandbox. -/
abbrev Proc := List String → FS → ProcEffect

/-- Apply a process effect under the sandbox root. -/
def applyProc (fs : FS) (tmp : FPath) (eff : ProcEffect) : FS :=
  let fs₁ := eff.mkdirs.foldl (fun a d => FS.addDir a (tmp ++ d)) fs
  eff.writes.foldl (fun a w => FS.writeFile a (tmp ++ w.1) w.2) fs₁

/-- Lexicographic path order, the model of `Path.glob("**/*")`'s top-down
traversal (a directory sorts before its contents). -/
def pathLe : FPath → FPath → Bool
  | [], _ => true
  | _ :: _, [] => false
  | x :: xs, y :: ys => if x = y then pathLe xs ys else strLt x y

def insertSorted (p : FPath) : List FPath → List FPath
  | [] => [p]
  | q :: rest => if pathLe p q then p :: q :: rest else q :: insertSorted p rest

def sortPaths (l : List FPath) : List FPath := l.foldr insertSorted []

/-- `(temp_path / name).glob("**/*")`: every file and directory strictly
below `root`, top-down. -/
def globEntries (fs : FS) (root : FPath) : List FPath :=
  sortPaths
    ((fs.dirs.filter (fun d => underDir root d && decide (d ≠ root))) ++
      ((fs.files.map (·.1)).filter (fun p => underDir root p && decide (p ≠ root))))

/-- The harvest loop for a `dir` output: for each discovered entry, create
the destination directory if it is not one yet, then `shutil.copy` the entry
into it. -/
def harvestDirLoop (dest : FPath) : FS → List FPath → FS × Option FsErr
  | fs, [] => (fs, none)
  | fs, p :: rest =>
    match (if fs.isDir dest then .ok fs else fsMkdir fs dest : Except FsErr FS) with
    | .error e => (fs, some e)
    | .ok fs₁ =>
      match fsCopy fs₁ p dest with
      | .error e => (fs₁, some e)
      | .ok fs₂ => harvestDirLoop dest fs₂ rest

/-- Harvest one declared output from the sandbox to its destination. -/
def harvestOne (tmp : FPath) (fs : FS) (f : CmdFileR) : FS × Option FsErr :=
  let dest := strToPath f.name
  if f.type = "file" then
    match fsCopy fs (tmp ++ [pathName f.name]) dest with
    | .ok fs₁ => (fs₁, none)
    | .error e => (fs, some e)
  else harvestDirLoop dest fs (globEntries fs (tmp ++ [pathName f.name]))

/-- Harvest every declared output in order. -/
def harvestList (tmp : FPath) : FS → List CmdFileR → FS × Option FsErr
  | fs, [] => (fs, none)
  | fs, f :: rest =>
    match harvestOne tmp fs f with
    | (fs₁, none) => harvestList tmp fs₁ rest
    | (fs₁, some e) => (fs₁, some e)

/-- The outcome of `run_command_isolated`: the filesystem after teardown,
whether (and how) the external process was launched, and the returned exit
code or the raised exception. -/
structure RunOutcome where
  fs : FS
  launched : Option (List String × Int)
  result : Except FsErr Int
  deriving Repr

/-- `run_command_isolated(cmd_args)`: partition the file arguments, create
the ephemeral sandbox, stage inputs, pre-create output directories, run the
external process on the rewritten argument list, harvest outputs, and tear
the sandbox down on every exit path. -/
def run_command_isolated (proc : Proc) (tmp : FPath) (fuel : Nat)
    (cmd_args : List CmdArgR) (fs : FS) : RunOutcome :=
  let input_files := inputFilesOf cmd_args
  let output_files := outputFilesOf cmd_args
  let fs₀ := FS.addDir fs tmp
  match stageList fuel tmp fs₀ input_files with
  | (fs₁, some e) => ⟨removeTree fs₁ tmp, none, .error e⟩
  | (fs₁, none) =>
    match precreateDirs tmp fs₁ output_files with
    | (fs₂, some e) => ⟨removeTree fs₂ tmp, none, .error e⟩
    | (fs₂, none) =>
      let args := rewriteArgs cmd_args
      let eff := proc args fs₂
      let fs₃ := applyProc fs₂ tmp eff
      match harvestList tmp fs₃ output_files with
      | (fs₄, some e) => ⟨removeTree fs₄ tmp, some (args, eff.rc), .error e⟩
      | (fs₄, none) => ⟨removeTree fs₄ tmp, some (args, eff.rc), .ok eff.rc⟩

/-! ## Driver: `run_for_series` -/

/-- One observable driver event per processed command. -/
inductive RunEvent where
  | skippedExists (path : FPath)
  | launchedProc (args : List String) (rc : Int)
  deriving DecidableEq, Repr

/-- The destination-directory preparation preceding each command: ensure the
destination itself (`output_is_dir`) or its parent is a directory. -/
def ensureDirs (output_is_dir : Bool) (fs : FS) (dest : FPath) : Except FsErr FS :=
  if output_is_dir then
    if fs.isDir dest then .ok fs else fsMkdirParents fs dest
  else
    if fs.isDir (parentDir dest) then .ok fs else fsMkdirParents fs (parentDir dest)

/-- The driver loop over the yielded results: prepare directories, apply the
check-exists skip policy (`result.path.is_file()`), otherwise run the command
in isolation. An exception aborts the remaining loop. -/
def seriesLoop (proc : Proc) (tmp : FPath) (fuel : Nat)
    (check_exists output_is_dir : Bool) :
    FS → List CmdGeneratorResult → List RunEvent × FS × Option FsErr
  | fs, [] => ([], fs, none)
  | fs, r :: rest =>
    let dest := strToPath r.path
    match ensureDirs output_is_dir fs dest with
    | .error e => ([], fs, some e)
    | .ok fs₁ =>
      if check_exists && fs₁.isFile dest then
        let t := seriesLoop proc tmp fuel check_exists output_is_dir fs₁ rest
        (.skippedExists dest :: t.1, t.2)
      else
        let oc := run_command_isolated proc tmp fuel r.cmd_args fs₁
        let evs :=
          match oc.launched with
          | some (a, rc) => [RunEvent.launchedProc a rc]
          | none => []
        match oc.result with
        | .ok _ =>
          let t := seriesLoop proc tmp fuel check_exists output_is_dir oc.fs rest
          (evs ++ t.1, t.2)
        | .error e => (evs, oc.fs, some e)

/-- `run_for_series(cmd_generator, check_exists, output_is_dir)`: iterate the
generator's stream; a generator exception surfaces after the prefix is
consumed, a runner exception aborts the loop. -/
def run_for_series {V : Type} (proc : Proc) (tmp : FPath) (fuel : Nat)
    (gmeta : Meta) (g : CmdGenerator V) (check_exists output_is_dir : Bool)
    (fs : FS) : List RunEvent × FS × Option (RenderErr ⊕ FsErr) :=
  let s := buildStream gmeta g
  let t := seriesLoop proc tmp fuel check_exists output_is_dir fs s.1
  match t.2.2 with
  | some e => (t.1, t.2.1, some (.inr e))
  | none => (t.1, t.2.1, s.2.map .inl)

/-! ## Comparison definitions used by individual claims -/

/-- The vars-resolution semantics asserted by the spec for the `vars` map:
variables resolved one at a time in declared key order, each resolved value
written back into the accumulator immediately, before the next variable is
rendered. Stated for comparison with `resolveVars`, the semantics of the
source. -/
def resolveVarsSeqSpec (vars : List (String × TStr)) (m : Meta) :
    Except RenderErr Meta :=
  vars.foldl
    (fun acc p =>
      match acc with
      | .error e => .error e
      | .ok d =>
        match jinja_render_str p.2 d with
        | .ok r => .ok (dinsert d p.1 r)
        | .error e => .error e)
    (.ok m)

/-- The batched characterization of the source's vars resolution: every
variable template is rendered against the base accumulator only, and the
rendered pairs are merged afterwards in one step. -/
def varsBatchRender (vars : List (String × TStr)) (m : Meta) :
    Except RenderErr (List (String × String)) :=
  match vars with
  | [] => .ok []
  | p :: rest =>
    match jinja_render_str p.2 m with
    | .error e => .error e
    | .ok r =>
      match varsBatchRender rest m with
      | .error e => .error e
      | .ok l => .ok ((p.1, r) :: l)

/-- The part of a rendered argument visible to the external process: the base
name for a file reference (with its tags), the string itself otherwise. -/
def argView : CmdArgR → String ⊕ String × String × String
  | .str s => .inl s
  | .file f => .inr (pathName f.name, f.purpose, f.type)

/-- A two-factor matrix `A`, `B` over given value lists, with no predicate,
trivial transforms and a constant path template. -/
def twoFactorGen (xs ys : List String) : CmdGenerator String :=
  mkCmdGenerator []
    [factorOfValues "A" xs (fun _ => []) id none,
     factorOfValues "B" ys (fun _ => []) id none]
    [] (.lit "p") []

/-- A matrix with no factors whose second variable references the first:
under the spec's sequential semantics `b` would resolve to `x`. -/
def genVarChain : CmdGenerator String :=
  mkCmdGenerator [] [] [("a", .lit "x"), ("b", .var "a")] (.lit "p") []

/-- A matrix whose first factor carries a predicate that reads the key
contributed by the second factor: the predicate drops the combination
whenever `b` is `"2"`. -/
def genEarlyPred (bVal : String) : CmdGenerator String :=
  mkCmdGenerator []
    [factorOfValues "a" ["1"] (fun _ => [])
      id (some (fun m => !(dget m "b" = some "2"))),
     factorOfValues "b" [bVal] (fun _ => []) id none]
    [] (.lit "p") []

/-- A matrix whose factor produces a templated command fragment referencing
an undefined variable for its second value only. -/
def genLateFragErr : CmdGenerator String :=
  mkCmdGenerator []
    [factorOfValues "a" ["ok", "bad"]
      (fun v => if v = "bad" then [TStr.var "missing"] else [])
      id none]
    [] (.lit "out/f") []

/-- A matrix with no factors and an `echo` command, destination path `d`. -/
def genEcho : CmdGenerator String :=
  mkCmdGenerator [.str (.lit "echo")] [] [] (.lit "d") []

/-- An external process with no observable effect and exit code 0. -/
def procNull : Proc := fun _ _ => ⟨0, [], []⟩

/-- An external process that writes a file inside a subdirectory of its
declared output directory `outd`. -/
def procNested : Proc := fun _ _ =>
  ⟨0, [(["outd", "sub", "f.txt"], "X")], [["outd", "sub"]]⟩

/-- The key sets a factor element contributes to the metadata accumulator:
the factor's own name for a raw value, the keys of the merged metadata map
for a nested result. -/
def contribKeys {V : Type} (f : Factor V) : FactorValue V → List String
  | .val _ => [f.name]
  | .result r => mkeys r.meta

/-- All value streams of a factor contribute the same key set (true of every
factor whose domain is a tuple, and of nested factors over a single inner
matrix). -/
def uniformContrib {V : Type} (g : CmdGenerator V) : Prop :=
  ∀ f ∈ g.factors, ∀ e₁ ∈ f.valuesSeq, ∀ e₂ ∈ f.valuesSeq,
    sameMembers (contribKeys f e₁) (contribKeys f e₂)

/-- Every command fragment any factor can produce is marker-free (true of
every matrix in the repository: fragments are preformatted plain strings). -/
def plainFragments {V : Type} (g : CmdGenerator V) : Prop :=
  ∀ f ∈ g.factors, ∀ v : V, ∀ t ∈ f.to_command v, t.hasMarker = false

/-! ## Dictionary and rendering lemmas -/

theorem mem_mkeys_dinsert {m : Meta} {k v a} :
    a ∈ mkeys (dinsert m k v) ↔ a ∈ mkeys m ∨ a = k := by
  induction m with
  | nil => simp [dinsert, mkeys]
  | cons p rest ih =>
    obtain ⟨k₁, v₁⟩ := p
    by_cases h : k₁ = k
    · subst h
      simp [dinsert, mkeys]
      tauto
    · simp only [dinsert, if_neg h, mkeys, List.map_cons, List.mem_cons]
      rw [mkeys] at ih
      tauto

theorem mem_mkeys_dupdate {m other : Meta} {a} :
    a ∈ mkeys (dupdate m other) ↔ a ∈ mkeys m ∨ a ∈ mkeys other := by
  induction other generalizing m with
  | nil => simp [dupdate, mkeys]
  | cons p rest ih =>
    obtain ⟨k, v⟩ := p
    show a ∈ mkeys (dupdate (dinsert m k v) rest) ↔ _
    rw [ih, mem_mkeys_dinsert]
    simp [mkeys]
    tauto

theorem dget_eq_none_iff {m : Meta} {k} : dget m k = none ↔ k ∉ mkeys m := by
  induction m with
  | nil => simp [dget, mkeys]
  | cons p rest ih =>
    obtain ⟨k₁, v₁⟩ := p
    by_cases h : k₁ = k
    · subst h; simp [dget, mkeys]
    · simp [dget, h, mkeys, ih, Ne.symm h]

theorem dget_isSome_iff {m : Meta} {k} : (dget m k).isSome ↔ k ∈ mkeys m := by
  cases h : dget m k with
  | none =>
    simp only [Option.isSome_none, Bool.false_eq_true, false_iff]
    exact dget_eq_none_iff.mp h
  | some v =>
    simp only [Option.isSome_some, true_iff]
    by_contra hk
    rw [dget_eq_none_iff.mpr hk] at h
    exact Option.noConfusion h

theorem dget_dinsert_self {m : Meta} {k v} : dget (dinsert m k v) k = some v := by
  induction m with
  | nil => simp [dinsert, dget]
  | cons p rest ih =>
    obtain ⟨k₁, v₁⟩ := p
    by_cases h : k₁ = k
    · subst h; simp [dinsert, dget]
    · simp [dinsert, h, dget, ih]

theorem dget_dinsert_ne {m : Meta} {k v a} (h : a ≠ k) :
    dget (dinsert m k v) a = dget m a := by
  have hk : k ≠ a := Ne.symm h
  induction m with
  | nil => simp [dinsert, dget, hk]
  | cons p rest ih =>
    obtain ⟨k₁, v₁⟩ := p
    by_cases h₁ : k₁ = k
    · subst h₁
      simp [dinsert, dget, hk]
    · simp [dinsert, h₁, dget, ih]

theorem dget_dupdate_not_mem {m other : Meta} {k} (h : k ∉ mkeys other) :
    dget (dupdate m other) k = dget m k := by
  induction other generalizing m with
  | nil => simp [dupdate]
  | cons p rest ih =>
    obtain ⟨k₁, v₁⟩ := p
    simp only [mkeys, List.map_cons, List.mem_cons, not_or] at h
    show dget (dupdate (dinsert m k₁ v₁) rest) k = _
    rw [ih (by simpa [mkeys] using h.2), dget_dinsert_ne h.1]

theorem dget_dupdate_mem {m other : Meta} {k v} (hnd : (mkeys other).Nodup)
    (hmem : (k, v) ∈ other) : dget (dupdate m other) k = some v := by
  induction other generalizing m with
  | nil => simp at hmem
  | cons p rest ih =>
    obtain ⟨k₁, v₁⟩ := p
    rw [mkeys, List.map_cons, List.nodup_cons] at hnd
    rcases List.mem_cons.mp hmem with h | h
    · have hk₁ : k₁ = k := (congrArg Prod.fst h).symm
      have hv₁ : v₁ = v := (congrArg Prod.snd h).symm
      subst hk₁; subst hv₁
      show dget (dupdate (dinsert m k₁ v₁) rest) k₁ = some v₁
      rw [dget_dupdate_not_mem (by exact hnd.1), dget_dinsert_self]
    · exact ih hnd.2 h

theorem renderT_hasMarker_false {t : TStr} {m : Meta} (h : t.hasMarker = false) :
    renderT t m = .ok t.flatten := by
  induction t with
  | lit s => simp [renderT, TStr.flatten]
  | var n => simp [TStr.hasMarker] at h
  | cat a b iha ihb =>
    simp only [TStr.hasMarker, Bool.or_eq_false_iff] at h
    simp [renderT, iha h.1, ihb h.2, TStr.flatten]

theorem renderT_isOk_iff {t : TStr} {m : Meta} :
    exOk (renderT t m) = true ↔ ∀ n ∈ t.varNames, n ∈ mkeys m := by
  induction t with
  | lit s => simp [renderT, TStr.varNames, exOk]
  | var n =>
    simp only [renderT, TStr.varNames, List.mem_singleton, forall_eq]
    cases h : dget m n with
    | none => simp [exOk, dget_eq_none_iff.mp h]
    | some v =>
      have : n ∈ mkeys m := by
        rw [← dget_isSome_iff, h]; rfl
      simp [exOk, this]
  | cat a b iha ihb =>
    simp only [renderT, TStr.varNames, List.mem_append]
    constructor
    · intro h n hn
      rcases hn with hn | hn
      · cases ha : renderT a m with
        | error e => rw [ha] at h; simp [exOk] at h
        | ok s => exact iha.mp (by simp [exOk, ha]) n hn
      · cases hb : renderT b m with
        | error e =>
          rw [hb] at h
          cases ha : renderT a m <;> rw [ha] at h <;> simp [exOk] at h
        | ok s => exact ihb.mp (by simp [exOk, hb]) n hn
    · intro h
      have ha := iha.mpr (fun n hn => h n (Or.inl hn))
      have hb := ihb.mpr (fun n hn => h n (Or.inr hn))
      cases hha : renderT a m <;> rw [hha] at ha <;> try simp [exOk] at ha
      cases hhb : renderT b m <;> rw [hhb] at hb <;> try simp [exOk] at hb
      simp [exOk]

theorem renderT_isOk_congr {t : TStr} {m₁ m₂ : Meta}
    (h : sameMembers (mkeys m₁) (mkeys m₂)) :
    exOk (renderT t m₁) = exOk (renderT t m₂) := by
  by_cases h₁ : exOk (renderT t m₁) = true
  · have := renderT_isOk_iff.mp h₁
    have : exOk (renderT t m₂) = true :=
      renderT_isOk_iff.mpr (fun n hn => (h n).mp (this n hn))
    rw [h₁, this]
  · have h₂ : ¬ exOk (renderT t m₂) = true := by
      intro hc
      exact h₁ (renderT_isOk_iff.mpr (fun n hn => (h n).mpr (renderT_isOk_iff.mp hc n hn)))
    rw [Bool.not_eq_true] at h₁ h₂
    rw [h₁, h₂]

theorem jinja_render_str_isOk_congr {t : TStr} {m₁ m₂ : Meta}
    (h : sameMembers (mkeys m₁) (mkeys m₂)) :
    exOk (jinja_render_str t m₁) = exOk (jinja_render_str t m₂) := by
  unfold jinja_render_str
  by_cases hm : t.hasMarker
  · simp only [hm, if_true]
    exact renderT_isOk_congr h
  · simp [hm]

theorem jinja_render_isOk_congr {a : CmdArgT} {m₁ m₂ : Meta}
    (h : sameMembers (mkeys m₁) (mkeys m₂)) :
    exOk (jinja_render a m₁) = exOk (jinja_render a m₂) := by
  cases a with
  | str t =>
    have := jinja_render_str_isOk_congr (t := t) h
    unfold jinja_render
    cases h₁ : jinja_render_str t m₁ <;> cases h₂ : jinja_render_str t m₂ <;>
      rw [h₁, h₂] at this <;> simp_all [exOk]
  | file f =>
    have := jinja_render_str_isOk_congr (t := f.name) h
    unfold jinja_render
    cases h₁ : jinja_render_str f.name m₁ <;> cases h₂ : jinja_render_str f.name m₂ <;>
      rw [h₁, h₂] at this <;> simp_all [exOk]

theorem jinja_render_str_no_marker {t : TStr} {m : Meta} (h : t.hasMarker = false) :
    jinja_render_str t m = .ok t.flatten := by
  simp [jinja_render_str, h]

theorem dinsert_dinsert_same {m : Meta} {k v w} :
    dinsert (dinsert m k v) k w = dinsert m k w := by
  induction m with
  | nil => simp [dinsert]
  | cons p rest ih =>
    obtain ⟨k₁, v₁⟩ := p
    by_cases h : k₁ = k
    · subst h; simp [dinsert]
    · simp [dinsert, h, ih]

theorem dinsert_dinsert_comm_of_mem {M : Meta} {k a v b}
    (hk : k ∈ mkeys M) (hne : a ≠ k) :
    dinsert (dinsert M a b) k v = dinsert (dinsert M k v) a b := by
  induction M with
  | nil => simp [mkeys] at hk
  | cons p rest ih =>
    obtain ⟨c, d₀⟩ := p
    by_cases hck : c = k
    · subst hck
      simp [dinsert, hne, Ne.symm hne]
    · have hk' : k ∈ mkeys rest := by
        rw [mkeys, List.map_cons, List.mem_cons] at hk
        rcases hk with h | h
        · exact absurd h.symm hck
        · exact h
      by_cases hca : c = a
      · subst hca; simp [dinsert, hck, hne, Ne.symm hne]
      · simp [dinsert, hck, hca, ih hk']

theorem dupdate_dinsert_comm_of_mem {l M : Meta} {k v}
    (hk : k ∈ mkeys M) (hl : k ∉ mkeys l) :
    dupdate (dinsert M k v) l = dinsert (dupdate M l) k v := by
  induction l generalizing M with
  | nil => rfl
  | cons p rest ih =>
    obtain ⟨a, b⟩ := p
    have ha : a ≠ k := by
      intro h
      subst h
      exact hl (by rw [mkeys, List.map_cons]; exact List.mem_cons_self _ _)
    have hrest : k ∉ mkeys rest := by
      intro h
      exact hl (by rw [mkeys, List.map_cons]; exact List.mem_cons_of_mem _ h)
    show dupdate (dinsert (dinsert M k v) a b) rest = _
    rw [← dinsert_dinsert_comm_of_mem hk ha]
    exact ih (M := dinsert M a b) (mem_mkeys_dinsert.mpr (Or.inl hk)) hrest

theorem mkeys_dinsert_nodup {d : Meta} {k v} (h : (mkeys d).Nodup) :
    (mkeys (dinsert d k v)).Nodup := by
  induction d with
  | nil => simp [dinsert, mkeys]
  | cons p rest ih =>
    obtain ⟨k₁, v₁⟩ := p
    rw [mkeys, List.map_cons, List.nodup_cons] at h
    by_cases hk : k₁ = k
    · subst hk
      have heq : dinsert ((k₁, v₁) :: rest) k₁ v = (k₁, v) :: rest := by
        simp [dinsert]
      rw [heq, mkeys, List.map_cons, List.nodup_cons]
      exact h
    · have heq : dinsert ((k₁, v₁) :: rest) k v = (k₁, v₁) :: dinsert rest k v := by
        simp [dinsert, hk]
      rw [heq, mkeys, List.map_cons, List.nodup_cons]
      refine ⟨?_, ih h.2⟩
      rw [show List.map Prod.fst (dinsert rest k v) = mkeys (dinsert rest k v) from rfl,
        mem_mkeys_dinsert]
      push_neg
      exact ⟨h.1, hk⟩

theorem dupdate_dinsert_nodup {d m : Meta} {k v} (hnd : (mkeys d).Nodup) :
    dupdate m (dinsert d k v) = dinsert (dupdate m d) k v := by
  induction d generalizing m with
  | nil => rfl
  | cons p rest ih =>
    obtain ⟨a, b⟩ := p
    rw [mkeys, List.map_cons, List.nodup_cons] at hnd
    by_cases hak : a = k
    · subst hak
      have h₁ : dinsert ((a, b) :: rest) a v = (a, v) :: rest := by
        simp [dinsert]
      rw [h₁]
      show dupdate (dinsert m a v) rest = dinsert (dupdate (dinsert m a b) rest) a v
      rw [← dupdate_dinsert_comm_of_mem (mem_mkeys_dinsert.mpr (Or.inr rfl)) hnd.1,
        dinsert_dinsert_same]
    · have h₁ : dinsert ((a, b) :: rest) k v = (a, b) :: dinsert rest k v := by
        simp [dinsert, hak]
      rw [h₁]
      show dupdate (dinsert m a b) (dinsert rest k v) = _
      rw [ih (m := dinsert m a b) hnd.2]
      rfl

theorem dupdate_dupdate_nodup {l d m : Meta} (hnd : (mkeys d).Nodup) :
    dupdate m (dupdate d l) = dupdate (dupdate m d) l := by
  induction l generalizing d with
  | nil => rfl
  | cons p rest ih =>
    obtain ⟨k, v⟩ := p
    show dupdate m (dupdate (dinsert d k v) rest) = dupdate (dinsert (dupdate m d) k v) rest
    rw [← dupdate_dinsert_nodup hnd]
    exact ih (mkeys_dinsert_nodup hnd)

theorem renderVarsGo_eq {vars : List (String × TStr)} {m : Meta} (d : Meta) :
    renderVarsGo vars m d =
      match varsBatchRender vars m with
      | .ok l => .ok (dupdate d l)
      | .error e => .error e := by
  induction vars generalizing d with
  | nil => rfl
  | cons p rest ih =>
    show (match jinja_render_str p.2 m with
      | .ok r => renderVarsGo rest m (dinsert d p.1 r)
      | .error e => .error e) = _
    cases hr : jinja_render_str p.2 m with
    | error e => simp [varsBatchRender, hr]
    | ok r =>
      show renderVarsGo rest m (dinsert d p.1 r) = _
      rw [ih (dinsert d p.1 r)]
      simp only [varsBatchRender, hr]
      cases varsBatchRender rest m <;> rfl

theorem varsBatchRender_isOk_iff {vars : List (String × TStr)} {m : Meta} :
    exOk (varsBatchRender vars m) = true ↔
      ∀ p ∈ vars, exOk (jinja_render_str p.2 m) = true := by
  induction vars with
  | nil => simp [varsBatchRender, exOk]
  | cons p rest ih =>
    have hstep : exOk (varsBatchRender (p :: rest) m) = true ↔
        (exOk (jinja_render_str p.2 m) = true ∧
          exOk (varsBatchRender rest m) = true) := by
      cases hr : jinja_render_str p.2 m <;> cases hb : varsBatchRender rest m <;>
        simp [varsBatchRender, hr, hb, exOk]
    rw [hstep, ih, List.forall_mem_cons]

/-- Claim C1 (counterexample): with `vars = [a ↦ "x", b ↦ "\x7b\x7b a \x7d\x7d"]`
and an empty accumulator, the source's expansion raises `UndefinedVariable "a"`,
while the claimed sequential write-back semantics would resolve `b` to `"x"`. -/
theorem claim_c1_counterexample :
    build_commands [] genVarChain = Except.error (RenderErr.undefinedVar "a") ∧
    resolveVarsSeqSpec [("a", .lit "x"), ("b", .var "a")] [] =
      Except.ok [("a", "x"), ("b", "x")] := by
  constructor <;> rfl

/-- Claim C1 (amended): in `build_commands`, after the factors of a
combination are processed, every named template variable is rendered against
the accumulator as it stood at that point — the resolved values are merged in
one batch afterwards, so a later variable's template is *not* rendered
against an earlier variable's already-resolved value. `resolveVars` (the
vars step of `processCombo`) equals the batch characterization
`varsBatchRender`, and its success depends only on each template rendering
against the base accumulator. -/
theorem claim_c1_amended (vars : List (String × TStr)) (m : Meta) :
    (resolveVars vars m =
      match varsBatchRender vars m with
      | .ok l => .ok (dupdate m l)
      | .error e => .error e) ∧
    (exOk (resolveVars vars m) = true ↔
      ∀ p ∈ vars, exOk (jinja_render_str p.2 m) = true) := by
  have hmain : resolveVars vars m =
      match varsBatchRender vars m with
      | .ok l => .ok (dupdate m l)
      | .error e => .error e := by
    have h₁ : renderVars vars m =
        match varsBatchRender vars m with
        | .ok l => .ok (dupdate [] l)
        | .error e => .error e := renderVarsGo_eq []
    unfold resolveVars
    rw [h₁]
    cases h : varsBatchRender vars m with
    | error e => rfl
    | ok l =>
      show Except.ok (dupdate m (dupdate [] l)) = Except.ok (dupdate m l)
      rw [dupdate_dupdate_nodup (by simp [mkeys])]
      rfl
  refine ⟨hmain, ?_⟩
  rw [hmain, ← varsBatchRender_isOk_iff]
  cases varsBatchRender vars m <;> simp [exOk]


/-- Claim C8: `jinja_render` applied to a plain string without template
markers returns the string itself unchanged (identity fast path, the
templating subsystem is not consulted); when markers are present all variable
references are substituted from the context — the dispatch agrees with the
subsystem `renderT` in every case, so the fast path is semantics-preserving;
applied to a tagged file reference it renders the inner name and preserves
the `purpose` and `type` tags unchanged. -/
theorem claim_c8 (t : TStr) (f : CmdFileT) (m : Meta) :
    (t.hasMarker = false → jinja_render_str t m = Except.ok t.flatten) ∧
    jinja_render_str t m = renderT t m ∧
    jinja_render (.file f) m =
      (match renderT f.name m with
        | .ok s => .ok (.file ⟨s, f.purpose, f.type⟩)
        | .error e => .error e) := by
  have hagree : ∀ u : TStr, jinja_render_str u m = renderT u m := by
    intro u
    by_cases h : u.hasMarker
    · simp [jinja_render_str, h]
    · rw [Bool.not_eq_true] at h
      rw [jinja_render_str_no_marker h, renderT_hasMarker_false h]
  refine ⟨fun h => jinja_render_str_no_marker h, hagree t, ?_⟩
  simp only [jinja_render]
  rw [hagree f.name]

/-- Witness for C8: the fast path, a substitution, and a file reference at
concrete inputs. -/
theorem claim_c8_witness :
    jinja_render_str (TStr.lit "plain") [("k", "v")] = Except.ok "plain" ∧
    jinja_render_str (TStr.cat (TStr.lit "a-") (TStr.var "k")) [("k", "v")] =
      Except.ok "a-v" ∧
    jinja_render (CmdArgT.file ⟨TStr.var "k", "input", "file"⟩) [("k", "v")] =
      Except.ok (CmdArgR.file ⟨"v", "input", "file"⟩) := by
  refine ⟨(claim_c8 (TStr.lit "plain") ⟨TStr.lit "z", "i", "file"⟩ [("k", "v")]).1 rfl,
    ?_, ?_⟩
  · rw [(claim_c8 (TStr.cat (TStr.lit "a-") (TStr.var "k"))
      ⟨TStr.lit "z", "i", "file"⟩ [("k", "v")]).2.1]
    rfl
  · rw [(claim_c8 (TStr.lit "z") ⟨TStr.var "k", "input", "file"⟩ [("k", "v")]).2.2]
    rfl

/-- Claim C10: in the argument list handed to the external process, every
file reference — declared outputs as well as inputs — is replaced by its
base name (final path component) and every plain string is passed through
unchanged in its original position; the rewritten list depends only on the
base-name view of the arguments, so the external process never sees a real
source or destination directory, and `run_command_isolated` launches the
process exactly on `rewriteArgs cmd_args`. -/
theorem claim_c10 (cmd_args : List CmdArgR) :
    (rewriteArgs cmd_args).length = cmd_args.length ∧
    (∀ i : Nat, ∀ s, cmd_args[i]? = some (.str s) →
      (rewriteArgs cmd_args)[i]? = some s) ∧
    (∀ i : Nat, ∀ f : CmdFileR, cmd_args[i]? = some (.file f) →
      (rewriteArgs cmd_args)[i]? = some (pathName f.name)) ∧
    (∀ cmd_args₂ : List CmdArgR, cmd_args.map argView = cmd_args₂.map argView →
      rewriteArgs cmd_args = rewriteArgs cmd_args₂) ∧
    (∀ (proc : Proc) (tmp : FPath) (fuel : Nat) (fs : FS) (a : List String) (rc : Int),
      (run_command_isolated proc tmp fuel cmd_args fs).launched = some (a, rc) →
      a = rewriteArgs cmd_args) := by
  have hview : ∀ l : List CmdArgR,
      rewriteArgs l = (l.map argView).map
        (fun v => match v with | .inl s => s | .inr t => t.1) := by
    intro l
    rw [rewriteArgs, List.map_map]
    refine List.map_congr_left ?_
    intro a _
    cases a <;> rfl
  refine ⟨by simp [rewriteArgs], ?_, ?_, ?_, ?_⟩
  · intro i s h
    rw [rewriteArgs, List.getElem?_map, h]
    rfl
  · intro i f h
    rw [rewriteArgs, List.getElem?_map, h]
    rfl
  · intro args₂ h
    rw [hview cmd_args, hview args₂, h]
  · intro proc tmp fuel fs a rc h
    simp only [run_command_isolated] at h
    split at h
    · simp at h
    · split at h
      · simp at h
      · split at h <;>
        · simp only [Option.some.injEq, Prod.mk.injEq] at h
          exact h.1.symm


/-- Witness for C10: a concrete argument list with a directory-qualified
output path. -/
theorem claim_c10_witness :
    (rewriteArgs [CmdArgR.str "-o",
        CmdArgR.file ⟨"out/dir/o.stl", "output", "file"⟩])[1]? =
      some (pathName "out/dir/o.stl") ∧
    rewriteArgs [CmdArgR.str "-o",
        CmdArgR.file ⟨"out/dir/o.stl", "output", "file"⟩] =
      rewriteArgs [CmdArgR.str "-o",
        CmdArgR.file ⟨"elsewhere/o.stl", "output", "file"⟩] :=
  ⟨(claim_c10 [CmdArgR.str "-o",
      CmdArgR.file ⟨"out/dir/o.stl", "output", "file"⟩]).2.2.1 1 _ rfl,
    (claim_c10 [CmdArgR.str "-o",
      CmdArgR.file ⟨"out/dir/o.stl", "output", "file"⟩]).2.2.2.1
      [CmdArgR.str "-o", CmdArgR.file ⟨"elsewhere/o.stl", "output", "file"⟩]
      (by rfl)⟩

theorem listProduct_single {α : Type} (ys : List α) :
    listProduct [ys] = ys.map (fun y => [y]) := by
  show (ys.map (fun y => (listProduct []).map (y :: ·))).flatten = _
  induction ys with
  | nil => rfl
  | cons y rest ih =>
    simp only [List.map_cons, List.flatten_cons] at ih ⊢
    rw [ih]
    rfl

theorem listProduct_pair {α : Type} (xs ys : List α) :
    listProduct [xs, ys] =
      (xs.map (fun x => ys.map (fun y => [x, y]))).flatten := by
  show (xs.map (fun x => (listProduct [ys]).map (x :: ·))).flatten = _
  rw [listProduct_single]
  congr 1
  refine List.map_congr_left ?_
  intro x _
  rw [List.map_map]
  rfl

theorem buildStreamAux_forall₂ {V : Type} {gmeta : Meta} {g : CmdGenerator V}
    {combos : List (List (FactorValue V))} {results : List CmdGeneratorResult}
    (h : List.Forall₂ (fun c r => processCombo gmeta g c = .ok (some r)) combos results) :
    buildStreamAux gmeta g combos = (results, none) := by
  induction h with
  | nil => rfl
  | cons hcr _ ih =>
    simp [buildStreamAux, hcr, ih]

theorem processCombo_twoFactor (xs ys : List String) (x y : String) :
    processCombo [] (twoFactorGen xs ys) [.val x, .val y] =
      .ok (some ⟨"p", [], [("A", x), ("B", y)]⟩) := rfl

/-- Claim C5: `build_commands` enumerates combinations in row-major order over
the factor list, the first-declared factor varying slowest: for any two-factor
matrix `A = xs`, `B = ys` with no predicate the yielded sequence is exactly
the row-major product; in particular `A = [1,2]`, `B = [x,y]` yields the four
combinations `(1,x),(1,y),(2,x),(2,y)` in that order. -/
theorem claim_c5 :
    (∀ xs ys : List String,
      build_commands [] (twoFactorGen xs ys) =
        .ok ((xs.map (fun x => ys.map (fun y =>
          (⟨"p", [], [("A", x), ("B", y)]⟩ : CmdGeneratorResult)))).flatten)) ∧
    build_commands [] (twoFactorGen ["1", "2"] ["x", "y"]) =
      .ok [⟨"p", [], [("A", "1"), ("B", "x")]⟩,
           ⟨"p", [], [("A", "1"), ("B", "y")]⟩,
           ⟨"p", [], [("A", "2"), ("B", "x")]⟩,
           ⟨"p", [], [("A", "2"), ("B", "y")]⟩] := by
  have hmain : ∀ xs ys : List String,
      build_commands [] (twoFactorGen xs ys) =
        .ok ((xs.map (fun x => ys.map (fun y =>
          (⟨"p", [], [("A", x), ("B", y)]⟩ : CmdGeneratorResult)))).flatten) := by
    intro xs ys
    have hprod : (twoFactorGen xs ys).product =
        ((xs.map (fun x => ys.map (fun y =>
          [FactorValue.val x, FactorValue.val y]))).flatten) := by
      show listProduct [xs.map FactorValue.val, ys.map FactorValue.val] =
        ((xs.map (fun x => ys.map (fun y =>
          [FactorValue.val x, FactorValue.val y]))).flatten)
      rw [listProduct_pair, List.map_map]
      congr 1
      refine List.map_congr_left ?_
      intro x _
      show List.map (fun y => [FactorValue.val x, y]) (List.map FactorValue.val ys) =
        List.map (fun y => [FactorValue.val x, FactorValue.val y]) ys
      rw [List.map_map]
      rfl
    have hforall : ∀ as bs : List String,
        List.Forall₂ (fun c r => processCombo [] (twoFactorGen xs ys) c = .ok (some r))
          ((as.map (fun x => bs.map (fun y =>
            [FactorValue.val x, FactorValue.val y]))).flatten)
          ((as.map (fun x => bs.map (fun y =>
            (⟨"p", [], [("A", x), ("B", y)]⟩ : CmdGeneratorResult)))).flatten) := by
      intro as bs
      induction as with
      | nil => simp
      | cons x rest ih =>
        simp only [List.map_cons, List.flatten_cons]
        refine List.rel_append ?_ ih
        clear ih
        induction bs with
        | nil => simp
        | cons y brest ihy =>
          simp only [List.map_cons]
          exact List.Forall₂.cons (processCombo_twoFactor xs ys x y) ihy
    have hstream : buildStream [] (twoFactorGen xs ys) =
        ((xs.map (fun x => ys.map (fun y =>
          (⟨"p", [], [("A", x), ("B", y)]⟩ : CmdGeneratorResult)))).flatten, none) := by
      rw [buildStream, hprod]
      exact buildStreamAux_forall₂ (hforall xs ys)
    rw [build_commands, hstream]
  exact ⟨hmain, by rw [hmain ["1", "2"] ["x", "y"]]; rfl⟩


theorem factorMeta_mkeys_mono {V : Type} {pairs : List (Factor V × FactorValue V)}
    {m₀ : Meta} {k : String} (h : k ∈ mkeys m₀) :
    k ∈ mkeys (factorMeta pairs m₀) := by
  induction pairs generalizing m₀ with
  | nil => exact h
  | cons p rest ih =>
    obtain ⟨f, e⟩ := p
    cases e with
    | result r => exact ih (mem_mkeys_dupdate.mpr (Or.inl h))
    | val v => exact ih (mem_mkeys_dinsert.mpr (Or.inl h))

theorem factorMeta_mem_of_pair {V : Type} {pairs : List (Factor V × FactorValue V)}
    {m₀ : Meta} {f : Factor V} {v : V} (h : (f, FactorValue.val v) ∈ pairs) :
    f.name ∈ mkeys (factorMeta pairs m₀) := by
  induction pairs generalizing m₀ with
  | nil => simp at h
  | cons p rest ih =>
    rcases List.mem_cons.mp h with h₁ | h₁
    · subst h₁
      show f.name ∈ mkeys (factorMeta rest (dinsert m₀ f.name (f.to_meta v)))
      exact factorMeta_mkeys_mono (mem_mkeys_dinsert.mpr (Or.inr rfl))
    · obtain ⟨f₀, e₀⟩ := p
      cases e₀ <;> exact ih h₁

theorem mem_listProduct_iff {α : Type} {ls : List (List α)} {c : List α} :
    c ∈ listProduct ls ↔ List.Forall₂ (fun x xs => x ∈ xs) c ls := by
  induction ls generalizing c with
  | nil =>
    simp only [listProduct, List.mem_singleton, List.forall₂_nil_right_iff]
  | cons xs rest ih =>
    show c ∈ (xs.map (fun x => (listProduct rest).map (x :: ·))).flatten ↔ _
    rw [List.mem_flatten, List.forall₂_cons_right_iff]
    constructor
    · rintro ⟨l, hl, hc⟩
      rw [List.mem_map] at hl
      obtain ⟨x, hx, rfl⟩ := hl
      rw [List.mem_map] at hc
      obtain ⟨t, ht, rfl⟩ := hc
      exact ⟨x, t, hx, ih.mp ht, rfl⟩
    · rintro ⟨x, t, hx, ht, rfl⟩
      refine ⟨(listProduct rest).map (x :: ·), List.mem_map_of_mem _ hx, ?_⟩
      exact List.mem_map_of_mem _ (ih.mpr ht)

theorem resolveVars_mkeys_mono {vars : List (String × TStr)} {m m' : Meta}
    (h : resolveVars vars m = .ok m') {k : String} (hk : k ∈ mkeys m) :
    k ∈ mkeys m' := by
  unfold resolveVars at h
  cases hr : renderVars vars m with
  | error e => rw [hr] at h; exact Except.noConfusion h
  | ok d =>
    rw [hr] at h
    cases h
    exact mem_mkeys_dupdate.mpr (Or.inl hk)

/-- Claim C2 (counterexample): a validity predicate attached to the first
factor observes the metadata value contributed by the second (later) factor:
with the later factor contributing `b = "2"` the combination is dropped by
the first factor's predicate, with `b = "3"` it is kept, so the predicate's
outcome depends on a value defined at a later position. -/
theorem claim_c2_counterexample :
    build_commands [] (genEarlyPred "2") = .ok [] ∧
    build_commands [] (genEarlyPred "3") =
      .ok [⟨"p", [], [("a", "1"), ("b", "3")]⟩] := by
  constructor <;> rfl

/-- Claim C2 (amended): every validity predicate is evaluated once per
candidate combination against that combination's COMPLETE metadata — the
dictionary obtained after all factors (of every position) contributed and all
template variables were resolved: a `false` conjunction drops the
combination, a yielded result carries exactly the metadata the predicates
saw, and that metadata contains the key of every factor that contributed a
raw value, later positions included. Predicates are not restricted to
metadata from factors at or before their own position. -/
theorem claim_c2_amended {V : Type} (g : CmdGenerator V) (gmeta : Meta)
    (combo : List (FactorValue V)) (m : Meta)
    (hc : combo ∈ g.product)
    (hv : resolveVars g.vars (factorPass g gmeta combo).2 = .ok m) :
    (g.runFilter m = false → processCombo gmeta g combo = .ok none) ∧
    (∀ r, processCombo gmeta g combo = .ok (some r) → r.meta = m) ∧
    (∀ i : Nat, ∀ hi : i < g.factors.length, ∀ v : V,
      combo[i]? = some (.val v) → g.factors[i].name ∈ mkeys m) := by
  have hpc : processCombo gmeta g combo =
      (if g.runFilter m then
        match renderArgs (factorPass g gmeta combo).1 m with
        | .error e => .error e
        | .ok rendered =>
          match jinja_render_str g.path m with
          | .error e => .error e
          | .ok p => .ok (some ⟨p, rendered, m⟩)
      else .ok none) := by
    unfold processCombo
    rw [hv]
  refine ⟨?_, ?_, ?_⟩
  · intro hf
    rw [hpc, hf]
    rfl
  · intro r h
    rw [hpc] at h
    split at h
    · split at h
      · exact Except.noConfusion h
      · split at h
        · exact Except.noConfusion h
        · simp only [Except.ok.injEq, Option.some.injEq] at h
          rw [← h]
    · simp at h
  · intro i hi v hval
    have hlen : combo.length = g.factors.length := by
      have hf₂ := mem_listProduct_iff.mp hc
      have := hf₂.length_eq
      simpa [CmdGenerator.product] using this
    have hzip : (g.factors.zip combo)[i]? = some (g.factors[i], FactorValue.val v) := by
      rw [List.getElem?_zip_eq_some]
      exact ⟨List.getElem?_eq_getElem hi, hval⟩
    have hmem : (g.factors[i], FactorValue.val v) ∈ g.factors.zip combo :=
      List.getElem?_mem hzip
    have hbase : g.factors[i].name ∈ mkeys (factorPass g gmeta combo).2 :=
      factorMeta_mem_of_pair hmem
    exact resolveVars_mkeys_mono hv hbase

/-- Witness for the amended C2: a concrete two-factor matrix where the
first factor's predicate keeps the combination; the complete metadata it
observed contains both factor keys. -/
theorem claim_c2_amended_witness :
    (∀ r, processCombo [] (genEarlyPred "3") [.val "1", .val "3"] = .ok (some r) →
      r.meta = [("a", "1"), ("b", "3")]) ∧
    "b" ∈ mkeys [("a", "1"), ("b", "3")] := by
  have h := claim_c2_amended (genEarlyPred "3") [] [.val "1", .val "3"]
    [("a", "1"), ("b", "3")] (by decide) rfl
  exact ⟨h.2.1, h.2.2 1 (by decide) "3" rfl⟩


/-! ## Filesystem lemmas -/

theorem readFilesList_write_self {l : List (FPath × String)} {p : FPath} {c : String} :
    readFilesList (writeFilesList l p c) p = some c := by
  induction l with
  | nil => simp [writeFilesList, readFilesList]
  | cons q rest ih =>
    by_cases h : q.1 = p
    · simp [writeFilesList, h, readFilesList]
    · simp [writeFilesList, h, readFilesList, ih]

theorem readFilesList_write_ne {l : List (FPath × String)} {p q : FPath} {c : String}
    (h : q ≠ p) :
    readFilesList (writeFilesList l p c) q = readFilesList l q := by
  have hpq : p ≠ q := Ne.symm h
  induction l with
  | nil => simp [writeFilesList, readFilesList, hpq]
  | cons e rest ih =>
    by_cases he : e.1 = p
    · simp [writeFilesList, he, readFilesList, hpq]
    · simp [writeFilesList, he, readFilesList, ih]

theorem readFile_writeFile_self {fs : FS} {p : FPath} {c : String} :
    (fs.writeFile p c).readFile p = some c := readFilesList_write_self

theorem readFile_writeFile_ne {fs : FS} {p q : FPath} {c : String} (h : q ≠ p) :
    (fs.writeFile p c).readFile q = fs.readFile q := readFilesList_write_ne h

theorem isDir_writeFile {fs : FS} {p : FPath} {c : String} {q : FPath} :
    (fs.writeFile p c).isDir q = fs.isDir q := rfl

theorem readFile_addDir {fs : FS} {d p : FPath} :
    (fs.addDir d).readFile p = fs.readFile p := by
  unfold FS.addDir
  split <;> rfl

theorem isFile_addDir {fs : FS} {d p : FPath} :
    (fs.addDir d).isFile p = fs.isFile p := by
  unfold FS.addDir
  split <;> rfl

theorem isDir_addDir_self {fs : FS} {d : FPath} : (fs.addDir d).isDir d = true := by
  unfold FS.addDir
  split
  · assumption
  · simp [FS.isDir]

theorem isDir_addDir_of {fs : FS} {d q : FPath} (h : fs.isDir q = true) :
    (fs.addDir d).isDir q = true := by
  unfold FS.addDir
  split
  · exact h
  · simp only [FS.isDir, List.any_append, Bool.or_eq_true] at h ⊢
    tauto

theorem isDir_addDir_inv {fs : FS} {d q : FPath}
    (h : (fs.addDir d).isDir q = true) : fs.isDir q = true ∨ q = d := by
  unfold FS.addDir at h
  split at h
  · exact Or.inl h
  · unfold FS.isDir at h ⊢
    rcases Bool.or_eq_true_iff.mp h with h₁ | h₁
    · exact Or.inl (Bool.or_eq_true_iff.mpr (Or.inl h₁))
    · rw [List.any_append] at h₁
      rcases Bool.or_eq_true_iff.mp h₁ with h₂ | h₂
      · exact Or.inl (Bool.or_eq_true_iff.mpr (Or.inr h₂))
      · right
        have hdq : d = q := by simpa using h₂
        exact hdq.symm

theorem underDir_nil_of {root q : FPath} (h : underDir root q = true)
    (hq : q = []) : root = [] := by
  subst hq
  unfold underDir at h
  simpa using of_decide_eq_true h

theorem readFilesList_filter_not_under {l : List (FPath × String)} {root q : FPath}
    (h : underDir root q = false) :
    readFilesList (l.filter (fun e => !(underDir root e.1))) q =
      readFilesList l q := by
  induction l with
  | nil => rfl
  | cons e rest ih =>
    rw [List.filter_cons]
    by_cases he : underDir root e.1 = true
    · have hne : e.1 ≠ q := by
        intro hh
        rw [hh, h] at he
        exact Bool.noConfusion he
      simp only [he, Bool.not_true, Bool.false_eq_true, if_false, ih]
      show _ = (if e.1 = q then some e.2 else readFilesList rest q)
      rw [if_neg hne]
    · rw [Bool.not_eq_true] at he
      simp only [he, Bool.not_false, if_true]
      show (if e.1 = q then some e.2 else _) = (if e.1 = q then some e.2 else _)
      by_cases hq : e.1 = q <;> simp [hq, ih]

theorem readFilesList_filter_under {l : List (FPath × String)} {root q : FPath}
    (h : underDir root q = true) :
    readFilesList (l.filter (fun e => !(underDir root e.1))) q = none := by
  induction l with
  | nil => rfl
  | cons e rest ih =>
    rw [List.filter_cons]
    by_cases he : underDir root e.1 = true
    · simp only [he, Bool.not_true, Bool.false_eq_true, if_false]
      exact ih
    · have hne : e.1 ≠ q := by
        intro hh
        rw [hh, h] at he
        exact he rfl
      rw [Bool.not_eq_true] at he
      simp only [he, Bool.not_false, if_true]
      show (if e.1 = q then some e.2 else _) = none
      rw [if_neg hne]
      exact ih

theorem removeTree_readFile {fs : FS} {root q : FPath}
    (h : underDir root q = false) :
    (removeTree fs root).readFile q = fs.readFile q :=
  readFilesList_filter_not_under h

theorem removeTree_isFile_under {fs : FS} {root q : FPath}
    (h : underDir root q = true) : (removeTree fs root).isFile q = false := by
  unfold FS.isFile
  show (readFilesList (fs.files.filter _) q).isSome = false
  rw [readFilesList_filter_under h]
  rfl

theorem removeTree_isDir_under {fs : FS} {root q : FPath} (hr : root ≠ [])
    (h : underDir root q = true) : (removeTree fs root).isDir q = false := by
  have hq : ¬ q.isEmpty = true := by
    intro hh
    exact hr (underDir_nil_of h (List.isEmpty_iff.mp hh))
  unfold FS.isDir
  simp only [Bool.or_eq_false_iff]
  refine ⟨by simpa using hq, ?_⟩
  show (fs.dirs.filter _).any _ = false
  rw [List.any_eq_false]
  intro d hd
  rw [List.mem_filter] at hd
  intro hdq
  rw [of_decide_eq_true hdq] at hd
  rw [h] at hd
  exact Bool.noConfusion hd.2

/-- Every exit path of the runner tears the sandbox down. -/
theorem run_fs_removed {proc : Proc} {tmp : FPath} {fuel : Nat}
    {cmd_args : List CmdArgR} {fs : FS} {q : FPath} (htmp : tmp ≠ [])
    (h : underDir tmp q = true) :
    (run_command_isolated proc tmp fuel cmd_args fs).fs.isFile q = false ∧
    (run_command_isolated proc tmp fuel cmd_args fs).fs.isDir q = false := by
  unfold run_command_isolated
  dsimp only
  split
  · exact ⟨removeTree_isFile_under h, removeTree_isDir_under htmp h⟩
  · split
    · exact ⟨removeTree_isFile_under h, removeTree_isDir_under htmp h⟩
    · split <;> exact ⟨removeTree_isFile_under h, removeTree_isDir_under htmp h⟩

/-- Claim C9 (counterexample): with check-exists enabled and the destination
path existing as a DIRECTORY before the run, the external process is still
launched — the skip check is `result.path.is_file()`, not a general
existence check. -/
theorem claim_c9_counterexample :
    FS.isDir ⟨[], [["d"]]⟩ ["d"] = true ∧
    run_for_series procNull ["T"] 1 [] genEcho true false ⟨[], [["d"]]⟩ =
      ([.launchedProc ["echo"] 0], ⟨[], [["d"]]⟩, none) := by
  constructor <;> rfl

/-- Claim C9 (amended): with check-exists enabled, whenever a command's
destination path exists as a regular FILE at check time (after the
destination-directory preparation), the driver emits only the
skipped-exists event for that command: `run_command_isolated` is not called,
so no external process is launched for it, and the loop continues on the
remaining commands with the filesystem unchanged. A destination existing
only as a directory does not suppress the launch. -/
theorem claim_c9_amended (proc : Proc) (tmp : FPath) (fuel : Nat)
    (output_is_dir : Bool) (fs fs₁ : FS) (r : CmdGeneratorResult)
    (rest : List CmdGeneratorResult)
    (hdir : ensureDirs output_is_dir fs (strToPath r.path) = .ok fs₁)
    (hfile : fs₁.isFile (strToPath r.path) = true) :
    seriesLoop proc tmp fuel true output_is_dir fs (r :: rest) =
      (RunEvent.skippedExists (strToPath r.path) ::
        (seriesLoop proc tmp fuel true output_is_dir fs₁ rest).1,
       (seriesLoop proc tmp fuel true output_is_dir fs₁ rest).2) := by
  simp only [seriesLoop]
  rw [hdir]
  simp [hfile]

/-- Witness for the amended C9: a destination that is an existing regular
file is skipped and nothing is launched. -/
theorem claim_c9_amended_witness :
    seriesLoop procNull ["T"] 1 true false ⟨[(["d"], "old")], []⟩
      [⟨"d", [CmdArgR.str "echo"], []⟩] =
      ([RunEvent.skippedExists ["d"]], ⟨[(["d"], "old")], []⟩, none) := by
  rw [claim_c9_amended procNull ["T"] 1 false ⟨[(["d"], "old")], []⟩
    ⟨[(["d"], "old")], []⟩ ⟨"d", [CmdArgR.str "echo"], []⟩ [] rfl rfl]
  rfl


theorem underDir_append {root suf : FPath} : underDir root (root ++ suf) = true := by
  unfold underDir
  rw [List.take_left]
  simp

theorem underDir_self {p : FPath} : underDir p p = true := by
  unfold underDir
  rw [List.take_length]
  simp

/-- Claim C6: for a call of `run_command_isolated` on a command with one
declared input file and one declared output file, when the external process
produces the declared artifact in the sandbox (at the output's base name),
the call returns the process's exit code — even a non-zero one — the
destination file afterwards holds exactly the sandbox-produced artifact
content, and nothing remains at or below the sandbox directory; moreover the
sandbox is removed on every exit path of every call (last conjunct,
unconditional). -/
theorem claim_c6 (proc : Proc) (tmp : FPath) (fuel : Nat)
    (cmd_args : List CmdArgR) (fi fo : CmdFileR) (fs fs₁ : FS) (c : String)
    (htmp : tmp ≠ [])
    (hin : inputFilesOf cmd_args = [fi])
    (hout : outputFilesOf cmd_args = [fo])
    (hft : fo.type = "file")
    (hstage : stageList fuel tmp (FS.addDir fs tmp) [fi] = (fs₁, none))
    (hart : FS.readFile (applyProc fs₁ tmp (proc (rewriteArgs cmd_args) fs₁))
      (tmp ++ [pathName fo.name]) = some c)
    (hartd : FS.isDir (applyProc fs₁ tmp (proc (rewriteArgs cmd_args) fs₁))
      (tmp ++ [pathName fo.name]) = false)
    (hdestd : FS.isDir (applyProc fs₁ tmp (proc (rewriteArgs cmd_args) fs₁))
      (strToPath fo.name) = false)
    (hdestp : FS.parentOk (applyProc fs₁ tmp (proc (rewriteArgs cmd_args) fs₁))
      (strToPath fo.name) = true)
    (hdtmp : underDir tmp (strToPath fo.name) = false) :
    (run_command_isolated proc tmp fuel cmd_args fs).result =
      .ok (proc (rewriteArgs cmd_args) fs₁).rc ∧
    FS.readFile (run_command_isolated proc tmp fuel cmd_args fs).fs
      (strToPath fo.name) = some c ∧
    ((run_command_isolated proc tmp fuel cmd_args fs).fs.isFile
        (tmp ++ [pathName fo.name]) = false ∧
      (run_command_isolated proc tmp fuel cmd_args fs).fs.isDir tmp = false) ∧
    (∀ (proc₂ : Proc) (args₂ : List CmdArgR) (fs₂ : FS) (fuel₂ : Nat) (q : FPath),
      underDir tmp q = true →
      FS.isFile (run_command_isolated proc₂ tmp fuel₂ args₂ fs₂).fs q = false ∧
      FS.isDir (run_command_isolated proc₂ tmp fuel₂ args₂ fs₂).fs q = false) := by
  have hpre : precreateDirs tmp fs₁ [fo] = (fs₁, none) := by
    unfold precreateDirs
    rw [hft]
    rfl
  have hcopy : fsCopy (applyProc fs₁ tmp (proc (rewriteArgs cmd_args) fs₁))
      (tmp ++ [pathName fo.name]) (strToPath fo.name) =
      .ok ((applyProc fs₁ tmp (proc (rewriteArgs cmd_args) fs₁)).writeFile
        (strToPath fo.name) c) := by
    unfold fsCopy
    rw [hartd, hart, hdestd]
    simp only [Bool.false_eq_true, if_false]
    rw [hdestp]
    rfl
  have hharv : harvestList tmp
      (applyProc fs₁ tmp (proc (rewriteArgs cmd_args) fs₁)) [fo] =
      ((applyProc fs₁ tmp (proc (rewriteArgs cmd_args) fs₁)).writeFile
        (strToPath fo.name) c, none) := by
    unfold harvestList harvestOne
    rw [hft]
    simp only [if_true, reduceIte]
    rw [hcopy]
    rfl
  have hrun : run_command_isolated proc tmp fuel cmd_args fs =
      ⟨removeTree ((applyProc fs₁ tmp (proc (rewriteArgs cmd_args) fs₁)).writeFile
          (strToPath fo.name) c) tmp,
        some (rewriteArgs cmd_args, (proc (rewriteArgs cmd_args) fs₁).rc),
        .ok (proc (rewriteArgs cmd_args) fs₁).rc⟩ := by
    unfold run_command_isolated
    rw [hin, hout]
    dsimp only
    rw [hstage]
    dsimp only
    rw [hpre]
    dsimp only
    rw [hharv]
  refine ⟨by rw [hrun], ?_, ?_, ?_⟩
  · rw [hrun]
    show FS.readFile (removeTree _ tmp) (strToPath fo.name) = some c
    rw [removeTree_readFile hdtmp, readFile_writeFile_self]
  · rw [hrun]
    constructor
    · exact removeTree_isFile_under underDir_append
    · exact removeTree_isDir_under htmp underDir_self
  · intro proc₂ args₂ fs₂ fuel₂ q hq
    exact run_fs_removed htmp hq


/-- Witness for C6: one declared input, one declared output, a process that
writes the artifact and exits with the non-zero code 3: the destination holds
the artifact, the sandbox is gone. -/
theorem claim_c6_witness :
    (run_command_isolated (fun _ _ => ⟨3, [(["o.txt"], "ART")], []⟩) ["T"] 2
      [CmdArgR.str "tool", CmdArgR.file ⟨"in.txt", "input", "file"⟩,
        CmdArgR.file ⟨"out/o.txt", "output", "file"⟩]
      ⟨[(["in.txt"], "DATA")], [["out"]]⟩).result = .ok 3 ∧
    FS.readFile (run_command_isolated (fun _ _ => ⟨3, [(["o.txt"], "ART")], []⟩)
      ["T"] 2
      [CmdArgR.str "tool", CmdArgR.file ⟨"in.txt", "input", "file"⟩,
        CmdArgR.file ⟨"out/o.txt", "output", "file"⟩]
      ⟨[(["in.txt"], "DATA")], [["out"]]⟩).fs ["out", "o.txt"] = some "ART" ∧
    FS.isFile (run_command_isolated (fun _ _ => ⟨3, [(["o.txt"], "ART")], []⟩)
      ["T"] 2
      [CmdArgR.str "tool", CmdArgR.file ⟨"in.txt", "input", "file"⟩,
        CmdArgR.file ⟨"out/o.txt", "output", "file"⟩]
      ⟨[(["in.txt"], "DATA")], [["out"]]⟩).fs ["T", "in.txt"] = false ∧
    FS.isDir (run_command_isolated (fun _ _ => ⟨3, [(["o.txt"], "ART")], []⟩)
      ["T"] 2
      [CmdArgR.str "tool", CmdArgR.file ⟨"in.txt", "input", "file"⟩,
        CmdArgR.file ⟨"out/o.txt", "output", "file"⟩]
      ⟨[(["in.txt"], "DATA")], [["out"]]⟩).fs ["T"] = false := by
  have h := claim_c6 (fun _ _ => ⟨3, [(["o.txt"], "ART")], []⟩) ["T"] 2
    [CmdArgR.str "tool", CmdArgR.file ⟨"in.txt", "input", "file"⟩,
      CmdArgR.file ⟨"out/o.txt", "output", "file"⟩]
    ⟨"in.txt", "input", "file"⟩ ⟨"out/o.txt", "output", "file"⟩
    ⟨[(["in.txt"], "DATA")], [["out"]]⟩
    ⟨[(["in.txt"], "DATA"), (["T", "in.txt"], "DATA")], [["out"], ["T"]]⟩
    "ART" (by decide) rfl rfl rfl rfl rfl rfl rfl rfl rfl
  refine ⟨h.1, h.2.1, ?_, ?_⟩
  · exact (h.2.2.2 (fun _ _ => ⟨3, [(["o.txt"], "ART")], []⟩)
      [CmdArgR.str "tool", CmdArgR.file ⟨"in.txt", "input", "file"⟩,
        CmdArgR.file ⟨"out/o.txt", "output", "file"⟩]
      ⟨[(["in.txt"], "DATA")], [["out"]]⟩ 2 ["T", "in.txt"] rfl).1
  · exact (h.2.2.2 (fun _ _ => ⟨3, [(["o.txt"], "ART")], []⟩)
      [CmdArgR.str "tool", CmdArgR.file ⟨"in.txt", "input", "file"⟩,
        CmdArgR.file ⟨"out/o.txt", "output", "file"⟩]
      ⟨[(["in.txt"], "DATA")], [["out"]]⟩ 2 ["T"] rfl).2


theorem append_singleton_ne {l : FPath} {b : String} : l ++ [b] ≠ l := by
  intro h
  have hlen := congrArg List.length h
  simp at hlen

theorem isFile_writeFile_ne {fs : FS} {p q : FPath} {c : String} (h : q ≠ p) :
    (fs.writeFile p c).isFile q = fs.isFile q := by
  show ((fs.writeFile p c).readFile q).isSome = (fs.readFile q).isSome
  rw [readFile_writeFile_ne h]

theorem isDir_false_addDir {fs : FS} {d q : FPath} (h : fs.isDir q = false)
    (hne : q ≠ d) : (fs.addDir d).isDir q = false := by
  cases hq : (fs.addDir d).isDir q
  · rfl
  · rcases isDir_addDir_inv hq with h₁ | h₁
    · rw [h] at h₁
      exact Bool.noConfusion h₁
    · exact absurd h₁ hne

theorem dropLast_append_singleton {l : FPath} {b : String} :
    (l ++ [b]).dropLast = l := by
  rw [List.dropLast_concat]

theorem harvestDirLoop_flat {dest : FPath} (es : List FPath) :
    ∀ fs : FS,
    (fs.isDir dest = true ∨
      (fs.isFile dest = false ∧ fs.isDir dest = false ∧ fs.parentOk dest = true)) →
    (∀ p ∈ es, fs.isDir p = false ∧ fs.isFile p = true ∧ p ≠ dest) →
    (∀ p q : FPath, p ∈ es → q ∈ es → dest ++ [p.getLastD ""] ≠ q) →
    (es.map (fun p => p.getLastD "")).Nodup →
    (harvestDirLoop dest fs es).2 = none ∧
    (∀ p ∈ es, FS.readFile (harvestDirLoop dest fs es).1 (dest ++ [p.getLastD ""]) =
      FS.readFile fs p) ∧
    (∀ q : FPath, (∀ p ∈ es, q ≠ dest ++ [p.getLastD ""]) →
      FS.readFile (harvestDirLoop dest fs es).1 q = FS.readFile fs q) := by
  induction es with
  | nil =>
    intro fs _ _ _ _
    exact ⟨rfl, by simp, fun q _ => rfl⟩
  | cons p rest ih =>
    intro fs Hdest Hsrc Hnc Hnd
    obtain ⟨hpd, hpf, hpne⟩ := Hsrc p (List.mem_cons_self p rest)
    have hmk : ∃ fs₁ : FS,
        (if fs.isDir dest then (Except.ok fs : Except FsErr FS)
          else fsMkdir fs dest) = .ok fs₁ ∧
        fs₁.isDir dest = true ∧
        (∀ q : FPath, fs₁.readFile q = fs.readFile q) ∧
        (∀ q : FPath, q ≠ dest → fs₁.isDir q = fs.isDir q) ∧
        (∀ q : FPath, fs₁.isFile q = fs.isFile q) := by
      by_cases hd : fs.isDir dest = true
      · exact ⟨fs, by simp [hd], hd, fun q => rfl, fun q _ => rfl, fun q => rfl⟩
      · rcases Hdest with h | ⟨hf, hdd, hp⟩
        · exact absurd h hd
        · refine ⟨fs.addDir dest, ?_, isDir_addDir_self,
            fun q => readFile_addDir, ?_, fun q => isFile_addDir⟩
          · rw [if_neg hd]
            unfold fsMkdir
            rw [hdd, hf]
            simp only [Bool.or_self, Bool.false_eq_true, if_false]
            rw [hp]
            rfl
          · intro q hq
            cases hqd : fs.isDir q
            · rw [isDir_false_addDir hqd hq]
            · rw [isDir_addDir_of hqd]
    obtain ⟨fs₁, hmkeq, h1d, h1r, h1dq, h1f⟩ := hmk
    have hb : fs₁.isDir p = false := by
      rw [h1dq p hpne]
      exact hpd
    have hcex : ∃ c : String, fs₁.readFile p = some c := by
      rw [h1r p]
      have : (fs.readFile p).isSome = true := hpf
      exact Option.isSome_iff_exists.mp this
    obtain ⟨c, hc⟩ := hcex
    have hcopy : fsCopy fs₁ p dest =
        .ok (fs₁.writeFile (dest ++ [p.getLastD ""]) c) := by
      unfold fsCopy
      rw [hb]
      simp only [Bool.false_eq_true, if_false]
      rw [show FS.readFile fs₁ p = some c from hc, h1d]
      simp only [if_true, reduceIte]
      have hpk : FS.parentOk fs₁ (dest ++ [p.getLastD ""]) = true := by
        unfold FS.parentOk parentDir
        rw [dropLast_append_singleton]
        exact h1d
      rw [hpk]
      rfl
    have hloop : harvestDirLoop dest fs (p :: rest) =
        harvestDirLoop dest (fs₁.writeFile (dest ++ [p.getLastD ""]) c) rest := by
      simp only [harvestDirLoop]
      rw [hmkeq]
      dsimp only
      rw [hcopy]
    have hdest₂ : (fs₁.writeFile (dest ++ [p.getLastD ""]) c).isDir dest = true := by
      rw [isDir_writeFile]
      exact h1d
    have hsrc₂ : ∀ q ∈ rest,
        (fs₁.writeFile (dest ++ [p.getLastD ""]) c).isDir q = false ∧
        (fs₁.writeFile (dest ++ [p.getLastD ""]) c).isFile q = true ∧ q ≠ dest := by
      intro q hq
      obtain ⟨hq1, hq2, hq3⟩ := Hsrc q (List.mem_cons_of_mem _ hq)
      have hqt : q ≠ dest ++ [p.getLastD ""] :=
        fun hh => Hnc p q (List.mem_cons_self p rest) (List.mem_cons_of_mem _ hq) hh.symm
      refine ⟨?_, ?_, hq3⟩
      · rw [isDir_writeFile, h1dq q hq3]
        exact hq1
      · rw [isFile_writeFile_ne hqt, h1f]
        exact hq2
    have hih := ih (fs₁.writeFile (dest ++ [p.getLastD ""]) c) (Or.inl hdest₂) hsrc₂
      (fun a b ha hb => Hnc a b (List.mem_cons_of_mem _ ha) (List.mem_cons_of_mem _ hb))
      ((List.nodup_cons.mp Hnd).2)
    obtain ⟨hnone, hall, hframe⟩ := hih
    have hheadne : ∀ q ∈ rest, dest ++ [p.getLastD ""] ≠ dest ++ [q.getLastD ""] := by
      intro q hq hh
      have hlast : p.getLastD "" = q.getLastD "" := by
        have := List.append_cancel_left hh
        simpa using this
      have hmem : q.getLastD "" ∈ rest.map (fun r => r.getLastD "") :=
        List.mem_map_of_mem _ hq
      rw [← hlast] at hmem
      exact (List.nodup_cons.mp Hnd).1 hmem
    refine ⟨by rw [hloop]; exact hnone, ?_, ?_⟩
    · intro q hq
      rcases List.mem_cons.mp hq with rfl | hq₁
      · rw [hloop, hframe _ hheadne, readFile_writeFile_self, ← h1r q, hc]
      · rw [hloop, hall q hq₁]
        have hqt : q ≠ dest ++ [p.getLastD ""] := fun hh =>
          Hnc p q (List.mem_cons_self p rest) (List.mem_cons_of_mem _ hq₁) hh.symm
        rw [readFile_writeFile_ne hqt, h1r]
    · intro q hqav
      rw [hloop, hframe q (fun r hr => hqav r (List.mem_cons_of_mem _ hr))]
      rw [readFile_writeFile_ne (hqav p (List.mem_cons_self p rest)), h1r]

/-- Claim C7 (counterexample): the harvest walk of a `dir` output passes every
discovered entry — directories included — to `shutil.copy`; when the external
process creates a nested subdirectory inside the declared output directory,
the copy of the subdirectory fails with IsADirectoryError and the file
discovered inside it is never copied into the destination: nested structure
aborts the harvest instead of being flattened. -/
theorem claim_c7_counterexample :
    (run_command_isolated procNested ["T"] 2
      [.file ⟨"outd", "output", "dir"⟩] ⟨[], []⟩).result =
      .error (.isADirectory ["T", "outd", "sub"]) ∧
    FS.readFile (run_command_isolated procNested ["T"] 2
      [.file ⟨"outd", "output", "dir"⟩] ⟨[], []⟩).fs ["outd", "f.txt"] = none := by
  constructor <;> rfl


/-- Claim C7 (amended): for a declared output of kind `dir`, the harvest
walks the sandbox subdirectory recursively; when every discovered entry is a
regular file (no nested subdirectory), every discovered file is copied into
the destination directory under its own base name — the destination directory
being created on the first copy when absent — and the run completes with the
process's exit code. A discovered nested subdirectory instead aborts the
harvest with an IsADirectoryError, so no flattened mirror of nested structure
is ever produced (see the counterexample). -/
theorem claim_c7_amended (proc : Proc) (tmp : FPath) (fuel : Nat)
    (cmd_args : List CmdArgR) (fo : CmdFileR) (fs fs₂ : FS) (eff : ProcEffect)
    (fs₃ : FS) (es : List FPath) (dest : FPath)
    (hin : inputFilesOf cmd_args = [])
    (hout : outputFilesOf cmd_args = [fo])
    (hft : fo.type = "dir")
    (hfs₂ : fs₂ = (FS.addDir fs tmp).addDir (tmp ++ [pathName fo.name]))
    (hmk : fsMkdir (FS.addDir fs tmp) (tmp ++ [pathName fo.name]) = .ok fs₂)
    (heff : eff = proc (rewriteArgs cmd_args) fs₂)
    (hfs₃ : fs₃ = applyProc fs₂ tmp eff)
    (hes : es = globEntries fs₃ (tmp ++ [pathName fo.name]))
    (hdst : dest = strToPath fo.name)
    (hdest : fs₃.isDir dest = true ∨
      (fs₃.isFile dest = false ∧ fs₃.isDir dest = false ∧ fs₃.parentOk dest = true))
    (hsrc : ∀ p ∈ es, fs₃.isDir p = false ∧ fs₃.isFile p = true ∧ p ≠ dest)
    (hnc : ∀ p q : FPath, p ∈ es → q ∈ es → dest ++ [p.getLastD ""] ≠ q)
    (hnd : (es.map (fun p => p.getLastD "")).Nodup)
    (htargets : ∀ p ∈ es, underDir tmp (dest ++ [p.getLastD ""]) = false) :
    (run_command_isolated proc tmp fuel cmd_args fs).result = .ok eff.rc ∧
    (run_command_isolated proc tmp fuel cmd_args fs).launched =
      some (rewriteArgs cmd_args, eff.rc) ∧
    ∀ p ∈ es, FS.readFile (run_command_isolated proc tmp fuel cmd_args fs).fs
      (dest ++ [p.getLastD ""]) = FS.readFile fs₃ p := by
  subst hdst hes hfs₃ heff hfs₂
  obtain ⟨hnone, hall, hframe⟩ :=
    harvestDirLoop_flat
      (globEntries
        (applyProc ((FS.addDir fs tmp).addDir (tmp ++ [pathName fo.name])) tmp
          (proc (rewriteArgs cmd_args)
            ((FS.addDir fs tmp).addDir (tmp ++ [pathName fo.name]))))
        (tmp ++ [pathName fo.name]))
      (applyProc ((FS.addDir fs tmp).addDir (tmp ++ [pathName fo.name])) tmp
        (proc (rewriteArgs cmd_args)
          ((FS.addDir fs tmp).addDir (tmp ++ [pathName fo.name]))))
      hdest hsrc hnc hnd
  rcases hsplit : harvestDirLoop (strToPath fo.name)
      (applyProc ((FS.addDir fs tmp).addDir (tmp ++ [pathName fo.name])) tmp
        (proc (rewriteArgs cmd_args)
          ((FS.addDir fs tmp).addDir (tmp ++ [pathName fo.name]))))
      (globEntries
        (applyProc ((FS.addDir fs tmp).addDir (tmp ++ [pathName fo.name])) tmp
          (proc (rewriteArgs cmd_args)
            ((FS.addDir fs tmp).addDir (tmp ++ [pathName fo.name]))))
        (tmp ++ [pathName fo.name])) with ⟨fs₄, e₄⟩
  rw [hsplit] at hnone hall hframe
  simp only at hnone
  subst hnone
  have hone : harvestOne tmp
      (applyProc ((FS.addDir fs tmp).addDir (tmp ++ [pathName fo.name])) tmp
        (proc (rewriteArgs cmd_args)
          ((FS.addDir fs tmp).addDir (tmp ++ [pathName fo.name])))) fo =
      (fs₄, none) := by
    unfold harvestOne
    rw [hft]
    simp only [reduceIte]
    exact hsplit
  have hrun : run_command_isolated proc tmp fuel cmd_args fs =
      ⟨removeTree fs₄ tmp,
        some (rewriteArgs cmd_args,
          (proc (rewriteArgs cmd_args)
            ((FS.addDir fs tmp).addDir (tmp ++ [pathName fo.name]))).rc),
        .ok (proc (rewriteArgs cmd_args)
          ((FS.addDir fs tmp).addDir (tmp ++ [pathName fo.name]))).rc⟩ := by
    unfold run_command_isolated
    rw [hin, hout]
    dsimp only
    simp only [stageList]
    have hpre : precreateDirs tmp (FS.addDir fs tmp) [fo] =
        ((FS.addDir fs tmp).addDir (tmp ++ [pathName fo.name]), none) := by
      unfold precreateDirs
      rw [hft]
      simp only [reduceIte]
      rw [hmk]
      rfl
    rw [hpre]
    dsimp only
    have hharv : harvestList tmp
        (applyProc ((FS.addDir fs tmp).addDir (tmp ++ [pathName fo.name])) tmp
          (proc (rewriteArgs cmd_args)
            ((FS.addDir fs tmp).addDir (tmp ++ [pathName fo.name])))) [fo] =
        (fs₄, none) := by
      unfold harvestList
      rw [hone]
      rfl
    rw [hharv]
  refine ⟨by rw [hrun], by rw [hrun], ?_⟩
  intro p hp
  rw [hrun]
  show FS.readFile (removeTree fs₄ tmp) _ = _
  rw [removeTree_readFile (htargets p hp)]
  exact hall p hp


/-- Witness for the amended C7: a process writes two flat files into the
declared output directory; both are harvested into the destination, which is
created on the way. -/
theorem claim_c7_amended_witness :
    (run_command_isolated
      (fun _ _ => ⟨0, [(["outd", "a.txt"], "A"), (["outd", "b.txt"], "B")], []⟩)
      ["T"] 2 [CmdArgR.file ⟨"outd", "output", "dir"⟩] ⟨[], []⟩).result =
      .ok 0 ∧
    FS.readFile (run_command_isolated
      (fun _ _ => ⟨0, [(["outd", "a.txt"], "A"), (["outd", "b.txt"], "B")], []⟩)
      ["T"] 2 [CmdArgR.file ⟨"outd", "output", "dir"⟩] ⟨[], []⟩).fs
      ["outd", "a.txt"] = some "A" ∧
    FS.readFile (run_command_isolated
      (fun _ _ => ⟨0, [(["outd", "a.txt"], "A"), (["outd", "b.txt"], "B")], []⟩)
      ["T"] 2 [CmdArgR.file ⟨"outd", "output", "dir"⟩] ⟨[], []⟩).fs
      ["outd", "b.txt"] = some "B" := by
  have h := claim_c7_amended
    (fun _ _ => ⟨0, [(["outd", "a.txt"], "A"), (["outd", "b.txt"], "B")], []⟩)
    ["T"] 2 [CmdArgR.file ⟨"outd", "output", "dir"⟩] ⟨"outd", "output", "dir"⟩
    ⟨[], []⟩ ⟨[], [["T"], ["T", "outd"]]⟩
    ⟨0, [(["outd", "a.txt"], "A"), (["outd", "b.txt"], "B")], []⟩
    ⟨[(["T", "outd", "a.txt"], "A"), (["T", "outd", "b.txt"], "B")],
      [["T"], ["T", "outd"]]⟩
    [["T", "outd", "a.txt"], ["T", "outd", "b.txt"]] ["outd"]
    rfl rfl rfl rfl rfl rfl rfl rfl rfl
    (Or.inr (by refine ⟨rfl, rfl, rfl⟩))
    (by decide)
    (by
      intro p q hp hq
      simp only [List.mem_cons, List.not_mem_nil, or_false] at hp hq
      rcases hp with rfl | rfl <;> rcases hq with rfl | rfl <;> decide)
    (by decide) (by decide)
  refine ⟨h.1, ?_, ?_⟩
  · exact h.2.2 ["T", "outd", "a.txt"] (by decide)
  · exact h.2.2 ["T", "outd", "b.txt"] (by decide)


/-! ## Lemmas for error propagation in expansion -/

theorem resolveVars_isOk_iff {vars : List (String × TStr)} {m : Meta} :
    exOk (resolveVars vars m) = true ↔
      ∀ p ∈ vars, exOk (jinja_render_str p.2 m) = true := by
  rw [← varsBatchRender_isOk_iff]
  have h₁ : renderVars vars m =
      match varsBatchRender vars m with
      | .ok l => .ok (dupdate [] l)
      | .error e => .error e := renderVarsGo_eq []
  unfold resolveVars
  rw [h₁]
  cases varsBatchRender vars m <;> simp [exOk]

theorem varsBatchRender_keys {vars : List (String × TStr)} {m : Meta}
    {l : List (String × String)} (h : varsBatchRender vars m = .ok l) :
    l.map Prod.fst = vars.map Prod.fst := by
  induction vars generalizing l with
  | nil =>
    cases h
    rfl
  | cons p rest ih =>
    unfold varsBatchRender at h
    cases hr : jinja_render_str p.2 m with
    | error e =>
      rw [hr] at h
      exact Except.noConfusion h
    | ok r =>
      rw [hr] at h
      cases hb : varsBatchRender rest m with
      | error e =>
        rw [hb] at h
        exact Except.noConfusion h
      | ok l₀ =>
        rw [hb] at h
        cases h
        simp [ih hb]

theorem resolveVars_ok_keys {vars : List (String × TStr)} {m m' : Meta}
    (h : resolveVars vars m = .ok m') :
    ∀ k, k ∈ mkeys m' ↔ k ∈ mkeys m ∨ k ∈ vars.map Prod.fst := by
  intro k
  have h₁ : renderVars vars m =
      match varsBatchRender vars m with
      | .ok l => .ok (dupdate [] l)
      | .error e => .error e := renderVarsGo_eq []
  unfold resolveVars at h
  rw [h₁] at h
  cases hb : varsBatchRender vars m with
  | error e =>
    rw [hb] at h
    exact Except.noConfusion h
  | ok l =>
    rw [hb] at h
    cases h
    rw [mem_mkeys_dupdate, mem_mkeys_dupdate, ← varsBatchRender_keys hb]
    show _ ∨ _ ∨ _ ↔ _
    simp [mkeys]

theorem renderArgs_isOk_iff {args : List CmdArgT} {m : Meta} :
    exOk (renderArgs args m) = true ↔
      ∀ a ∈ args, exOk (jinja_render a m) = true := by
  induction args with
  | nil => simp [renderArgs, exOk]
  | cons a rest ih =>
    have hstep : exOk (renderArgs (a :: rest) m) = true ↔
        (exOk (jinja_render a m) = true ∧ exOk (renderArgs rest m) = true) := by
      cases hr : jinja_render a m <;> cases hb : renderArgs rest m <;>
        simp [renderArgs, hr, hb, exOk]
    rw [hstep, ih, List.forall_mem_cons]

theorem factorArgs_base_mem {V : Type} {l : List (Factor V × FactorValue V)}
    {args₀ : List CmdArgT} {a : CmdArgT} (h : a ∈ args₀) :
    a ∈ factorArgs l args₀ := by
  induction l generalizing args₀ with
  | nil => exact h
  | cons pr rest ih =>
    obtain ⟨f, e⟩ := pr
    cases e with
    | result r => exact ih h
    | val v => exact ih (List.mem_append_left _ h)

theorem factorArgs_mem_split {V : Type} {pairs : List (Factor V × FactorValue V)}
    {args₀ : List CmdArgT} {a : CmdArgT} (h : a ∈ factorArgs pairs args₀) :
    a ∈ args₀ ∨ ∃ pr ∈ pairs, ∃ v : V, a ∈ (pr.1.to_command v).map CmdArgT.str := by
  induction pairs generalizing args₀ with
  | nil => exact Or.inl h
  | cons pr rest ih =>
    obtain ⟨f, e⟩ := pr
    cases e with
    | result r =>
      rcases ih h with h₁ | ⟨pr₁, hpr₁, v, hv⟩
      · exact Or.inl h₁
      · exact Or.inr ⟨pr₁, List.mem_cons_of_mem _ hpr₁, v, hv⟩
    | val v₀ =>
      rcases ih h with h₁ | ⟨pr₁, hpr₁, v, hv⟩
      · rcases List.mem_append.mp h₁ with h₂ | h₂
        · exact Or.inl h₂
        · exact Or.inr ⟨(f, .val v₀), List.mem_cons_self _ _, v₀, h₂⟩
      · exact Or.inr ⟨pr₁, List.mem_cons_of_mem _ hpr₁, v, hv⟩

theorem mem_mkeys_factorMeta {V : Type} {pairs : List (Factor V × FactorValue V)}
    {m₀ : Meta} {k : String} :
    k ∈ mkeys (factorMeta pairs m₀) ↔
      k ∈ mkeys m₀ ∨ ∃ pr ∈ pairs, k ∈ contribKeys pr.1 pr.2 := by
  induction pairs generalizing m₀ with
  | nil => simp [factorMeta]
  | cons pr rest ih =>
    obtain ⟨f, e⟩ := pr
    cases e with
    | result r =>
      show k ∈ mkeys (factorMeta rest (dupdate m₀ r.meta)) ↔ _
      rw [ih, mem_mkeys_dupdate]
      simp only [List.mem_cons, contribKeys]
      constructor
      · rintro ((h | h) | h)
        · exact Or.inl h
        · exact Or.inr ⟨(f, .result r), Or.inl rfl, h⟩
        · obtain ⟨pr₁, h₁, h₂⟩ := h
          exact Or.inr ⟨pr₁, Or.inr h₁, h₂⟩
      · rintro (h | ⟨pr₁, (h₁ | h₁), h₂⟩)
        · exact Or.inl (Or.inl h)
        · rw [h₁] at h₂
          exact Or.inl (Or.inr h₂)
        · exact Or.inr ⟨pr₁, h₁, h₂⟩
    | val v =>
      show k ∈ mkeys (factorMeta rest (dinsert m₀ f.name (f.to_meta v))) ↔ _
      rw [ih, mem_mkeys_dinsert]
      simp only [List.mem_cons, contribKeys]
      constructor
      · rintro ((h | h) | h)
        · exact Or.inl h
        · exact Or.inr ⟨(f, .val v), Or.inl rfl, by simp [contribKeys, h]⟩
        · obtain ⟨pr₁, h₁, h₂⟩ := h
          exact Or.inr ⟨pr₁, Or.inr h₁, h₂⟩
      · rintro (h | ⟨pr₁, (h₁ | h₁), h₂⟩)
        · exact Or.inl (Or.inl h)
        · rw [h₁] at h₂
          simp only [contribKeys, List.mem_singleton] at h₂
          exact Or.inl (Or.inr h₂)
        · exact Or.inr ⟨pr₁, h₁, h₂⟩

theorem zip_contrib_congr {V : Type} {factors : List (Factor V)}
    {c₁ c₂ : List (FactorValue V)} {k : String}
    (h₁ : List.Forall₂ (fun e (f : Factor V) => e ∈ f.valuesSeq) c₁ factors)
    (h₂ : List.Forall₂ (fun e (f : Factor V) => e ∈ f.valuesSeq) c₂ factors)
    (hu : ∀ f ∈ factors, ∀ e₁ ∈ f.valuesSeq, ∀ e₂ ∈ f.valuesSeq,
      sameMembers (contribKeys f e₁) (contribKeys f e₂)) :
    (∃ pr ∈ factors.zip c₁, k ∈ contribKeys pr.1 pr.2) ↔
    (∃ pr ∈ factors.zip c₂, k ∈ contribKeys pr.1 pr.2) := by
  induction factors generalizing c₁ c₂ with
  | nil =>
    cases h₁
    cases h₂
    simp
  | cons f fr ih =>
    cases h₁ with
    | cons he₁ ht₁ =>
      cases h₂ with
      | cons he₂ ht₂ =>
        rename_i e₁ c₁' e₂ c₂'
        have hhead := hu f (List.mem_cons_self f fr) e₁ he₁ e₂ he₂
        have htail := ih ht₁ ht₂
          (fun f₀ hf₀ => hu f₀ (List.mem_cons_of_mem _ hf₀))
        show (∃ pr ∈ (f, e₁) :: fr.zip c₁', k ∈ contribKeys pr.1 pr.2) ↔
          (∃ pr ∈ (f, e₂) :: fr.zip c₂', k ∈ contribKeys pr.1 pr.2)
        simp only [List.mem_cons]
        constructor
        · rintro ⟨pr, (rfl | hpr), hk⟩
          · exact ⟨(f, e₂), Or.inl rfl, (hhead k).mp hk⟩
          · obtain ⟨pr₂, hpr₂, hk₂⟩ := htail.mp ⟨pr, hpr, hk⟩
            exact ⟨pr₂, Or.inr hpr₂, hk₂⟩
        · rintro ⟨pr, (rfl | hpr), hk⟩
          · exact ⟨(f, e₁), Or.inl rfl, (hhead k).mpr hk⟩
          · obtain ⟨pr₂, hpr₂, hk₂⟩ := htail.mpr ⟨pr, hpr, hk⟩
            exact ⟨pr₂, Or.inr hpr₂, hk₂⟩

theorem buildStreamAux_err_exists {V : Type} {gmeta : Meta} {g : CmdGenerator V}
    {combos : List (List (FactorValue V))} {e : RenderErr}
    (h : (buildStreamAux gmeta g combos).2 = some e) :
    ∃ c ∈ combos, processCombo gmeta g c = .error e := by
  induction combos with
  | nil => exact Option.noConfusion h
  | cons c rest ih =>
    unfold buildStreamAux at h
    cases hc : processCombo gmeta g c with
    | error e₀ =>
      rw [hc] at h
      simp only at h
      cases h
      exact ⟨c, List.mem_cons_self c rest, hc⟩
    | ok o =>
      rw [hc] at h
      cases o with
      | none =>
        obtain ⟨c₁, hc₁, he₁⟩ := ih h
        exact ⟨c₁, List.mem_cons_of_mem _ hc₁, he₁⟩
      | some r =>
        simp only at h
        obtain ⟨c₁, hc₁, he₁⟩ := ih h
        exact ⟨c₁, List.mem_cons_of_mem _ hc₁, he₁⟩

theorem buildStreamAux_cons_exists {V : Type} {gmeta : Meta} {g : CmdGenerator V}
    {combos : List (List (FactorValue V))}
    (h : (buildStreamAux gmeta g combos).1 ≠ []) :
    ∃ c ∈ combos, ∃ r, processCombo gmeta g c = .ok (some r) := by
  induction combos with
  | nil => exact absurd rfl h
  | cons c rest ih =>
    unfold buildStreamAux at h
    cases hc : processCombo gmeta g c with
    | error e₀ =>
      rw [hc] at h
      exact absurd rfl h
    | ok o =>
      rw [hc] at h
      cases o with
      | none =>
        obtain ⟨c₁, hc₁, he₁⟩ := ih h
        exact ⟨c₁, List.mem_cons_of_mem _ hc₁, he₁⟩
      | some r => exact ⟨c, List.mem_cons_self c rest, r, hc⟩


theorem processCombo_no_error {V : Type} {gmeta : Meta} {g : CmdGenerator V}
    {cok cerr : List (FactorValue V)} {r : CmdGeneratorResult} {e : RenderErr}
    (hu : uniformContrib g) (hp : plainFragments g)
    (hok : cok ∈ g.product) (herr : cerr ∈ g.product)
    (hro : processCombo gmeta g cok = .ok (some r))
    (hre : processCombo gmeta g cerr = .error e) : False := by
  have hf₁ : List.Forall₂ (fun e (f : Factor V) => e ∈ f.valuesSeq) cok g.factors := by
    have h := mem_listProduct_iff.mp hok
    rwa [List.forall₂_map_right_iff] at h
  have hf₂ : List.Forall₂ (fun e (f : Factor V) => e ∈ f.valuesSeq) cerr g.factors := by
    have h := mem_listProduct_iff.mp herr
    rwa [List.forall₂_map_right_iff] at h
  have hkeys : sameMembers (mkeys (factorPass g gmeta cok).2)
      (mkeys (factorPass g gmeta cerr).2) := by
    intro k
    show k ∈ mkeys (factorMeta (g.factors.zip cok) gmeta) ↔
      k ∈ mkeys (factorMeta (g.factors.zip cerr) gmeta)
    rw [mem_mkeys_factorMeta, mem_mkeys_factorMeta]
    exact or_congr Iff.rfl (zip_contrib_congr hf₁ hf₂ hu)
  unfold processCombo at hro hre
  cases hv₁ : resolveVars g.vars (factorPass g gmeta cok).2 with
  | error e₁ =>
    rw [hv₁] at hro
    exact Except.noConfusion hro
  | ok mok =>
    rw [hv₁] at hro
    dsimp only at hro
    cases hv₂ : resolveVars g.vars (factorPass g gmeta cerr).2 with
    | error e₂ =>
      have hcongr : exOk (resolveVars g.vars (factorPass g gmeta cerr).2) = true := by
        rw [resolveVars_isOk_iff]
        intro p hpv
        rw [← jinja_render_str_isOk_congr (t := p.2) hkeys]
        exact resolveVars_isOk_iff.mp (by rw [hv₁]; rfl) p hpv
      rw [hv₂] at hcongr
      simp [exOk] at hcongr
    | ok merr =>
      rw [hv₂] at hre
      dsimp only at hre
      have hkeys₂ : sameMembers (mkeys mok) (mkeys merr) := by
        intro k
        rw [resolveVars_ok_keys hv₁ k, resolveVars_ok_keys hv₂ k]
        exact or_congr (hkeys k) Iff.rfl
      cases hflt : g.runFilter mok with
      | false =>
        rw [hflt] at hro
        simp at hro
      | true =>
        rw [hflt] at hro
        simp only [reduceIte] at hro
        cases hra : renderArgs (factorPass g gmeta cok).1 mok with
        | error e₁ =>
          rw [hra] at hro
          exact Except.noConfusion hro
        | ok rend =>
          rw [hra] at hro
          cases hpa : jinja_render_str g.path mok with
          | error e₁ =>
            rw [hpa] at hro
            exact Except.noConfusion hro
          | ok pstr =>
            cases hflt₂ : g.runFilter merr with
            | false =>
              rw [hflt₂] at hre
              simp at hre
            | true =>
              rw [hflt₂] at hre
              simp only [reduceIte] at hre
              have hraok : exOk (renderArgs (factorPass g gmeta cerr).1 merr) = true := by
                rw [renderArgs_isOk_iff]
                intro a ha
                rcases factorArgs_mem_split ha with hbase | ⟨pr, hpr, v, hstr⟩
                · have hargsok : exOk (renderArgs (factorPass g gmeta cok).1 mok) =
                      true := by
                    rw [hra]
                    rfl
                  have hok₁ : exOk (jinja_render a mok) = true :=
                    renderArgs_isOk_iff.mp hargsok a
                      (factorArgs_base_mem (l := g.factors.zip cok) hbase)
                  rw [← jinja_render_isOk_congr (a := a) hkeys₂]
                  exact hok₁
                · obtain ⟨f₀, e₀⟩ := pr
                  rw [List.mem_map] at hstr
                  obtain ⟨t, ht, rfl⟩ := hstr
                  have hmf : t.hasMarker = false :=
                    hp f₀ (List.of_mem_zip hpr).1 v t ht
                  have hjr : jinja_render (.str t) merr =
                      Except.ok (CmdArgR.str t.flatten) := by
                    show (match jinja_render_str t merr with
                      | Except.ok s => Except.ok (CmdArgR.str s)
                      | Except.error e => Except.error e) =
                      Except.ok (CmdArgR.str t.flatten)
                    rw [jinja_render_str_no_marker hmf]
                  rw [hjr]
                  rfl
              have hpok : exOk (jinja_render_str g.path merr) = true := by
                rw [← jinja_render_str_isOk_congr (t := g.path) hkeys₂, hpa]
                rfl
              cases hra₂ : renderArgs (factorPass g gmeta cerr).1 merr with
              | error e₂ =>
                rw [hra₂] at hraok
                simp [exOk] at hraok
              | ok rend₂ =>
                rw [hra₂] at hre
                cases hpa₂ : jinja_render_str g.path merr with
                | error e₂ =>
                  rw [hpa₂] at hpok
                  simp [exOk] at hpok
                | ok p₂ =>
                  rw [hpa₂] at hre
                  exact Except.noConfusion hre

theorem buildStream_err_prefix_nil {V : Type} {gmeta : Meta} {g : CmdGenerator V}
    (hu : uniformContrib g) (hp : plainFragments g) {e : RenderErr}
    (herr : (buildStream gmeta g).2 = some e) :
    (buildStream gmeta g).1 = [] := by
  by_contra hne
  obtain ⟨cerr, hcerr, herre⟩ := buildStreamAux_err_exists herr
  obtain ⟨cok, hcok, r, hokr⟩ := buildStreamAux_cons_exists hne
  exact processCombo_no_error hu hp hcok hcerr hokr herre

/-- Claim C3 (counterexample): a factor whose command-fragment transform
yields an undefined-variable template only for its second value: the first
combination renders fine and its external process is launched BEFORE the
iteration reaches the failing combination and raises UndefinedVariable — the
error is not always raised before any external process is spawned. -/
theorem claim_c3_counterexample :
    run_for_series procNull ["T"] 1 [] genLateFragErr false false ⟨[], [["out"]]⟩ =
      ([RunEvent.launchedProc [] 0], ⟨[], [["out"]]⟩,
        some (Sum.inl (RenderErr.undefinedVar "missing"))) := by
  rfl

/-- Claim C3 (amended): a template referencing an undefined variable always
aborts the run with the fatal UndefinedVariable error (never a silent
empty-string substitution); and whenever every factor's command fragments are
marker-free (true of every matrix in this repository, whose fragments are
preformatted plain strings) and each factor's stream contributes a fixed key
set, the failure is combination-independent, so it surfaces on the first
combination that would be rendered and the error is raised before ANY
external process is spawned: the driver emits no launch event at all. -/
theorem claim_c3_amended {V : Type} (proc : Proc) (tmp : FPath) (fuel : Nat)
    (gmeta : Meta) (g : CmdGenerator V) (check_exists output_is_dir : Bool)
    (fs : FS) (e : RenderErr)
    (hu : uniformContrib g) (hp : plainFragments g)
    (herr : (buildStream gmeta g).2 = some e) :
    (∃ n, e = .undefinedVar n) ∧
    run_for_series proc tmp fuel gmeta g check_exists output_is_dir fs =
      ([], fs, some (.inl e)) := by
  refine ⟨by cases e with | undefinedVar n => exact ⟨n, rfl⟩, ?_⟩
  have hnil : (buildStream gmeta g).1 = [] := buildStream_err_prefix_nil hu hp herr
  unfold run_for_series
  dsimp only
  rw [hnil]
  simp only [seriesLoop]
  rw [herr]
  rfl

/-- Witness for the amended C3: a matrix with no factors whose second
variable references the first (undefined at render time): the run produces no
launch event and surfaces the UndefinedVariable error. -/
theorem claim_c3_amended_witness :
    run_for_series procNull ["T"] 1 [] genVarChain false false ⟨[], []⟩ =
      ([], ⟨[], []⟩, some (.inl (.undefinedVar "a"))) :=
  (claim_c3_amended procNull ["T"] 1 [] genVarChain false false ⟨[], []⟩
    (.undefinedVar "a")
    (by intro f hf; simp [genVarChain, mkCmdGenerator] at hf)
    (by intro f hf; simp [genVarChain, mkCmdGenerator] at hf)
    rfl).2


/-! ## Lemmas for nested-matrix expansion -/

theorem listProduct_length {α : Type} (ls : List (List α)) :
    (listProduct ls).length = (ls.map List.length).prod := by
  induction ls with
  | nil => rfl
  | cons xs rest ih =>
    show ((xs.map (fun x => (listProduct rest).map (x :: ·))).flatten).length = _
    induction xs with
    | nil => simp
    | cons x xs' ihx =>
      simp only [List.map_cons, List.flatten_cons, List.length_append,
        List.length_map] at ihx ⊢
      rw [ihx]
      simp only [List.map_cons, List.prod_cons, List.length_cons]
      rw [ih]
      ring

theorem forall₂_zip_rel {α β : Type} {R : α → β → Prop}
    {l₁ : List α} {l₂ : List β} (h : List.Forall₂ R l₁ l₂) :
    ∀ pr ∈ l₂.zip l₁, R pr.2 pr.1 := by
  induction h with
  | nil =>
    intro pr hpr
    simp at hpr
  | cons hab htail ih =>
    intro pr hpr
    rcases List.mem_cons.mp hpr with rfl | hpr₁
    · exact hab
    · exact ih pr hpr₁

theorem factorMeta_dget_pres_vals {V : Type} :
    ∀ (pairs : List (Factor V × FactorValue V)) (acc : Meta) (k v : String),
    dget acc k = some v →
    (∀ pr ∈ pairs, pr.1.name ≠ k) →
    (∀ pr ∈ pairs, ∃ w : V, pr.2 = FactorValue.val w) →
    dget (factorMeta pairs acc) k = some v := by
  intro pairs
  induction pairs with
  | nil =>
    intro acc k v h _ _
    exact h
  | cons pr rest ih =>
    intro acc k v h hname hv
    obtain ⟨w, hw⟩ := hv pr (List.mem_cons_self pr rest)
    obtain ⟨f, e⟩ := pr
    simp only at hw
    subst hw
    show dget (factorMeta rest (dinsert acc f.name (f.to_meta w))) k = some v
    refine ih _ k v ?_ (fun q hq => hname q (List.mem_cons_of_mem _ hq))
      (fun q hq => hv q (List.mem_cons_of_mem _ hq))
    rw [dget_dinsert_ne (Ne.symm (hname (f, .val w) (List.mem_cons_self _ _)))]
    exact h

theorem buildStreamAux_congr {V : Type} {gmeta : Meta} {g₁ g₂ : CmdGenerator V}
    {combos : List (List (FactorValue V))}
    (h : ∀ c ∈ combos, processCombo gmeta g₁ c = processCombo gmeta g₂ c) :
    buildStreamAux gmeta g₁ combos = buildStreamAux gmeta g₂ combos := by
  induction combos with
  | nil => rfl
  | cons c rest ih =>
    have hc := h c (List.mem_cons_self c rest)
    have hr := ih (fun d hd => h d (List.mem_cons_of_mem _ hd))
    simp only [buildStreamAux, hc, hr]

theorem dget_resolveVars_not_mem {vars : List (String × TStr)} {m m' : Meta}
    {k : String} (h : resolveVars vars m = .ok m')
    (hk : k ∉ vars.map Prod.fst) : dget m' k = dget m k := by
  have h₁ : renderVars vars m =
      match varsBatchRender vars m with
      | .ok l => .ok (dupdate [] l)
      | .error e => .error e := renderVarsGo_eq []
  unfold resolveVars at h
  rw [h₁] at h
  cases hb : varsBatchRender vars m with
  | error e =>
    rw [hb] at h
    exact Except.noConfusion h
  | ok l =>
    rw [hb] at h
    cases h
    refine dget_dupdate_not_mem ?_
    rw [mem_mkeys_dupdate]
    rintro (hmem | hmem)
    · simp [mkeys] at hmem
    · rw [show mkeys l = l.map Prod.fst from rfl, varsBatchRender_keys hb] at hmem
      exact hk hmem


/-- Claim C4: when a factor's domain is a nested matrix, every element it
yields is a fully resolved command of the inner matrix
(`factorOfGenerator` draws from the inner `build_commands` stream); the outer
candidate count before predicate filtering is exactly N (inner commands)
times the product of the other factors' domain sizes; for each candidate the
inner command's whole metadata map is merged into the accumulator — later
keys winning on collision, so under key-disjointness with the other factors
and vars every inner entry survives into the combination's resolved
metadata — and the nested factor's own fragment/tag transforms are never
invoked: the produced stream is identical for any two choices of transforms. -/
theorem claim_c4 {V : Type} (gmeta : Meta) (inner : CmdGenerator V)
    (tc tc' : V → List TStr) (tm tm' : V → String) (others : List (Factor V))
    (cmd : List CmdArgT) (vars : List (String × TStr)) (path : TStr)
    (hval : ∀ f ∈ others, ∃ vs : List V, f.valuesSeq = vs.map FactorValue.val) :
    (mkCmdGenerator cmd
        (factorOfGenerator "model" gmeta inner tc tm none :: others)
        vars path []).product.length =
      (buildStream gmeta inner).1.length *
        (others.map (fun f => f.valuesSeq.length)).prod ∧
    (∀ combo ∈ (mkCmdGenerator cmd
        (factorOfGenerator "model" gmeta inner tc tm none :: others)
        vars path []).product,
      ∃ r rest, combo = FactorValue.result r :: rest ∧
        r ∈ (buildStream gmeta inner).1 ∧
        ((mkeys r.meta).Nodup →
          (∀ f ∈ others, f.name ∉ mkeys r.meta) →
          (∀ p ∈ vars, p.1 ∉ mkeys r.meta) →
          ∀ m', resolveVars vars
            (factorPass (mkCmdGenerator cmd
              (factorOfGenerator "model" gmeta inner tc tm none :: others)
              vars path []) gmeta combo).2 = .ok m' →
          ∀ kv ∈ r.meta, dget m' kv.1 = some kv.2)) ∧
    buildStream gmeta (mkCmdGenerator cmd
      (factorOfGenerator "model" gmeta inner tc tm none :: others)
      vars path []) =
    buildStream gmeta (mkCmdGenerator cmd
      (factorOfGenerator "model" gmeta inner tc' tm' none :: others)
      vars path []) := by
  refine ⟨?_, ?_, ?_⟩
  · show (listProduct (((factorOfGenerator "model" gmeta inner tc tm none ::
      others).map (·.valuesSeq)))).length = _
    rw [listProduct_length]
    simp only [List.map_cons, List.prod_cons, List.map_map]
    show ((buildStream gmeta inner).1.map FactorValue.result).length * _ = _
    rw [List.length_map]
    rfl
  · intro combo hc
    have hf : List.Forall₂ (fun e (f : Factor V) => e ∈ f.valuesSeq) combo
        (factorOfGenerator "model" gmeta inner tc tm none :: others) := by
      have h := mem_listProduct_iff.mp hc
      rwa [List.forall₂_map_right_iff] at h
    cases hf with
    | cons hhead htail =>
      rename_i eh ct
      obtain ⟨r, hrmem, hre⟩ := List.mem_map.mp hhead
      subst hre
      refine ⟨r, ct, rfl, hrmem, ?_⟩
      intro hnd hnames hvars m' hres kv hkv
      have hkey : kv.1 ∈ mkeys r.meta := List.mem_map_of_mem Prod.fst hkv
      have hbase : dget (dupdate gmeta r.meta) kv.1 = some kv.2 :=
        dget_dupdate_mem hnd hkv
      have hmeta : dget (factorPass (mkCmdGenerator cmd
          (factorOfGenerator "model" gmeta inner tc tm none :: others)
          vars path []) gmeta (FactorValue.result r :: ct)).2 kv.1 = some kv.2 := by
        show dget (factorMeta (others.zip ct) (dupdate gmeta r.meta)) kv.1 = some kv.2
        refine factorMeta_dget_pres_vals _ _ _ _ hbase ?_ ?_
        · intro pr hpr hname
          exact hnames pr.1 (List.of_mem_zip hpr).1 (hname ▸ hkey)
        · intro pr hpr
          have h₂ : pr.2 ∈ pr.1.valuesSeq := forall₂_zip_rel htail pr hpr
          obtain ⟨vs, hvs⟩ := hval pr.1 (List.of_mem_zip hpr).1
          rw [hvs] at h₂
          obtain ⟨w, _, hwe⟩ := List.mem_map.mp h₂
          exact ⟨w, hwe.symm⟩
      have hnotvar : kv.1 ∉ vars.map Prod.fst := by
        intro hmem
        obtain ⟨p, hp₁, hp₂⟩ := List.mem_map.mp hmem
        exact hvars p hp₁ (hp₂ ▸ hkey)
      rw [dget_resolveVars_not_mem hres hnotvar]
      exact hmeta
  · show buildStreamAux gmeta _ (mkCmdGenerator cmd
      (factorOfGenerator "model" gmeta inner tc tm none :: others)
      vars path []).product = buildStreamAux gmeta _ (mkCmdGenerator cmd
      (factorOfGenerator "model" gmeta inner tc' tm' none :: others)
      vars path []).product
    have hprod : (mkCmdGenerator cmd
        (factorOfGenerator "model" gmeta inner tc' tm' none :: others)
        vars path []).product = (mkCmdGenerator cmd
        (factorOfGenerator "model" gmeta inner tc tm none :: others)
        vars path []).product := rfl
    rw [hprod]
    refine buildStreamAux_congr ?_
    intro c hcp
    have hf : List.Forall₂ (fun e (f : Factor V) => e ∈ f.valuesSeq) c
        (factorOfGenerator "model" gmeta inner tc tm none :: others) := by
      have h := mem_listProduct_iff.mp hcp
      rwa [List.forall₂_map_right_iff] at h
    cases hf with
    | cons hhead htail =>
      rename_i eh ct
      obtain ⟨r, hrmem, hre⟩ := List.mem_map.mp hhead
      subst hre
      rfl


/-- Witness for C4: an inner matrix with two commands and one other factor of
two values gives four candidates; the inner metadata entry survives into the
combination's resolved metadata; two different (never invoked) transform
choices for the nested factor give identical streams. -/
theorem claim_c4_witness :
    (mkCmdGenerator []
      (factorOfGenerator "model" [] (mkCmdGenerator [] [factorOfValues "i" ["1", "2"] (fun _ => []) id none]
      [] (.lit "ip") [] : CmdGenerator String) (fun _ => [TStr.lit "X"]) id none ::
        [factorOfValues "o" ["a", "b"] (fun _ => []) id none]) [] (.lit "p") []).product.length = 4 ∧
    dget [("i", "1"), ("o", "a")] "i" = some "1" ∧
    buildStream [] (mkCmdGenerator []
      (factorOfGenerator "model" [] (mkCmdGenerator [] [factorOfValues "i" ["1", "2"] (fun _ => []) id none]
      [] (.lit "ip") [] : CmdGenerator String) (fun _ => [TStr.lit "X"]) id none ::
        [factorOfValues "o" ["a", "b"] (fun _ => []) id none]) [] (.lit "p") []) =
      buildStream [] (mkCmdGenerator []
      (factorOfGenerator "model" [] (mkCmdGenerator [] [factorOfValues "i" ["1", "2"] (fun _ => []) id none]
      [] (.lit "ip") [] : CmdGenerator String) (fun _ => []) (fun _ => "z") none ::
        [factorOfValues "o" ["a", "b"] (fun _ => []) id none]) [] (.lit "p") []) := by
  have h := claim_c4 [] (mkCmdGenerator [] [factorOfValues "i" ["1", "2"] (fun _ => []) id none]
      [] (.lit "ip") [] : CmdGenerator String)
    (fun _ => [TStr.lit "X"]) (fun _ => []) id (fun _ => "z")
    [factorOfValues "o" ["a", "b"] (fun _ => []) id none] [] [] (.lit "p")
    (by
      intro f hf
      simp only [List.mem_singleton] at hf
      subst hf
      exact ⟨["a", "b"], rfl⟩)
  refine ⟨h.1, ?_, h.2.2⟩
  obtain ⟨r, rest, heq, hmem, himpl⟩ := h.2.1
    [FactorValue.result ⟨"ip", [], [("i", "1")]⟩, FactorValue.val "a"] (by decide)
  injection heq with h1 h2
  injection h1 with h3
  subst h3
  exact himpl (by decide) (by decide) (by simp) [("i", "1"), ("o", "a")] rfl
    ("i", "1") (by decide)

end BuildAll
